import Mathlib

/-!
# Verification of the `limitbook` central limit order book

Shallow embedding of `src/ticks.rs`, `src/order.rs` and `src/order_book.rs`.

The `Decimal` type of the `rust_decimal` crate is treated as an abstract
exact-arithmetic numeric type with total ordering (as the specification
declares it out of scope); it is modelled by `ℚ`.  `BTreeMap<Tick, Orders>`
is modelled by an association list sorted in strictly increasing key order
(the derived lexicographic order on `Tick`); `VecDeque<Order>` by a `List`
whose head is the queue front; `HashMap<OrderId, _>` by an association list
with distinct keys (its iteration order is never observed).  Fallible Rust
functions returning `eyre::Result` are modelled with `Except`; a `.expect`
or `.unwrap` that would panic is modelled by the distinguished error value
`BookErr.panicked`.  Methods taking `&mut self` are modelled as functions
returning the result together with the updated book; on an early `?` return
the book carries whatever mutations had already been applied, exactly as in
Rust.
-/

set_option maxHeartbeats 1600000

abbrev Decimal := ℚ

abbrev OrderId := ℕ

inductive OrderSide
  | Buy
  | Sell
deriving DecidableEq

inductive OrderType
  | Limit
  | Market
deriving DecidableEq

structure Order where
  id : OrderId
  quantity : Decimal
  order_type : OrderType
  order_side : OrderSide
deriving DecidableEq

structure Fill where
  quantity : Decimal
  price : Decimal
  taker_order_id : OrderId
  maker_order_id : OrderId
deriving DecidableEq

/-- Error values of the embedding; the Rust code uses `eyre` string errors,
distinguished here by construction site.  `panicked` marks a `.expect` that
would abort the process. -/
inductive BookErr
  | invalidPrice
  | invalidQuantity
  | invalidTickSize
  | insufficientLiquidity
  | notFound
  | tickLevelNotFound
  | orderNotInLevel
  | panicked
deriving DecidableEq

/-- `rust_decimal`'s `round()`: round to the nearest integer, ties to the
nearest even integer (`MidpointNearestEven`). -/
def roundBank (q : ℚ) : ℤ :=
  let f := ⌊q⌋
  let r := q - (f : ℚ)
  if r < 1/2 then f
  else if 1/2 < r then f + 1
  else if f % 2 = 0 then f else f + 1

/-- `Tick` from `src/ticks.rs`.  The Rust struct derives `Eq`, `PartialEq`,
`Ord`, `PartialOrd`, so equality compares both fields and the order is
lexicographic on `(level, tick_size)`. -/
structure Tick where
  level : Decimal
  tick_size : Decimal
deriving DecidableEq

/-- The derived (lexicographic) `Ord::lt` on `Tick`. -/
def tickLt (a b : Tick) : Prop :=
  a.level < b.level ∨ (a.level = b.level ∧ a.tick_size < b.tick_size)

instance : DecidableRel tickLt := fun a b => by
  unfold tickLt; infer_instance

namespace Tick

/-- `Tick::normalize`. -/
def normalize (price tick_size : Decimal) : Decimal :=
  (roundBank (price / tick_size) : ℚ) * tick_size

/-- `Tick::new`. -/
def new (price tick_size : Decimal) : Except BookErr Tick :=
  if price ≤ 0 then .error .invalidPrice
  else if tick_size ≤ 0 then .error .invalidTickSize
  else .ok ⟨normalize price tick_size, tick_size⟩

end Tick

/-- `Order::new` from `src/order.rs`. -/
def Order.new (id : OrderId) (quantity : Decimal) (t : OrderType) (s : OrderSide) :
    Except BookErr Order :=
  if quantity ≤ 0 then .error .invalidQuantity
  else .ok ⟨id, quantity, t, s⟩

/-- The `Orders` struct of `src/order_book.rs`: the FIFO queue at one price
level together with its cached volume and count. -/
structure Orders where
  orders : List Order
  total_volume : Decimal
  order_count : ℕ
deriving DecidableEq

namespace Orders

def new : Orders := ⟨[], 0, 0⟩

/-- `Orders::add_order`: push to the back of the queue. -/
def add_order (os : Orders) (o : Order) : Orders :=
  { orders := os.orders ++ [o]
    total_volume := os.total_volume + o.quantity
    order_count := os.order_count + 1 }

/-- Remove the first order with the given id from a queue. -/
def removeById (l : List Order) (oid : OrderId) : Option (Order × List Order) :=
  match l with
  | [] => none
  | o :: rest =>
    if o.id = oid then some (o, rest)
    else
      match removeById rest oid with
      | none => none
      | some (r, rest') => some (r, o :: rest')

/-- `Orders::remove_order`. -/
def remove_order (os : Orders) (oid : OrderId) : Except BookErr (Order × Orders) :=
  match removeById os.orders oid with
  | none => .error .orderNotInLevel
  | some (o, rest) =>
      .ok (o, { orders := rest
                total_volume := os.total_volume - o.quantity
                order_count := os.order_count - 1 })

end Orders

/-- One half of the book: `BTreeMap<Tick, Orders>` as an association list in
strictly increasing (lexicographic) key order. -/
abbrev Side := List (Tick × Orders)

/-- `BTreeMap::get`. -/
def getLevel : Side → Tick → Option Orders
  | [], _ => none
  | (k, os) :: rest, t => if k = t then some os else getLevel rest t

/-- Write back the (mutated-in-place) value at a key. -/
def setLevel : Side → Tick → Orders → Side
  | [], _, _ => []
  | (k, os) :: rest, t, os' =>
      if k = t then (t, os') :: rest else (k, os) :: setLevel rest t os'

/-- `BTreeMap::remove`. -/
def eraseLevel : Side → Tick → Side
  | [], _ => []
  | (k, os) :: rest, t => if k = t then rest else (k, os) :: eraseLevel rest t

/-- `entry(tick).or_insert_with(Orders::new).add_order(o)`: keeps the key
list sorted. -/
def insertOrder : Side → Tick → Order → Side
  | [], t, o => [(t, Orders.new.add_order o)]
  | (k, os) :: rest, t, o =>
      if k = t then (k, os.add_order o) :: rest
      else if tickLt t k then (t, Orders.new.add_order o) :: (k, os) :: rest
      else (k, os) :: insertOrder rest t o

/-- `HashMap<OrderId, (OrderSide, Tick)>` as an association list. -/
abbrev Lookup := List (OrderId × OrderSide × Tick)

def lkGet : Lookup → OrderId → Option (OrderSide × Tick)
  | [], _ => none
  | (k, v) :: rest, oid => if k = oid then some v else lkGet rest oid

def lkRemove : Lookup → OrderId → Lookup
  | [], _ => []
  | (k, v) :: rest, oid => if k = oid then rest else (k, v) :: lkRemove rest oid

def lkInsert (l : Lookup) (oid : OrderId) (v : OrderSide × Tick) : Lookup :=
  (oid, v) :: lkRemove l oid

/-- The `OrderBook` struct. -/
structure OrderBook where
  tick_size : Decimal
  bids : Side
  asks : Side
  next_id : OrderId
  order_lookup : Lookup
  total_bid_volume : Decimal
  total_ask_volume : Decimal
deriving DecidableEq

/-- `OrderBook::new`. -/
def OrderBook.new (tick_size : Decimal) : Except BookErr OrderBook :=
  if tick_size ≤ 0 then .error .invalidTickSize
  else .ok ⟨tick_size, [], [], 0, [], 0, 0⟩

/-- Result of the inner matching loop at one price level. -/
structure QRes where
  fills : List Fill
  remaining : Decimal
  queue : List Order
  tv : Decimal
  cnt : ℕ
  lk : Lookup
  agg : Decimal
deriving DecidableEq

/-- The inner `while` loop of the matching engine: match `remaining` against
the FIFO queue at one price level, maintaining the level's cached volume and
count, the order lookup and the opposite-side aggregate volume.

Note: the source takes `front_mut()` but never writes the head order's
`quantity`; on a partial fill the head keeps its original quantity (only the
level volume and the aggregate are reduced), and the loop then exits because
`remaining` has reached zero. -/
def matchQueue (taker : OrderId) (price : Decimal) :
    Decimal → List Order → Decimal → ℕ → Lookup → Decimal → QRes
  | remaining, [], tv, cnt, lk, agg => ⟨[], remaining, [], tv, cnt, lk, agg⟩
  | remaining, h :: rest, tv, cnt, lk, agg =>
    if remaining ≤ 0 then ⟨[], remaining, h :: rest, tv, cnt, lk, agg⟩
    else
      let f := min remaining h.quantity
      let fill : Fill := ⟨f, price, taker, h.id⟩
      if f = h.quantity then
        let out := matchQueue taker price (remaining - f) rest (tv - f) (cnt - 1)
          (lkRemove lk h.id) (agg - f)
        ⟨fill :: out.fills, out.remaining, out.queue, out.tv, out.cnt, out.lk, out.agg⟩
      else
        ⟨[fill], remaining - f, h :: rest, tv - f, cnt, lk, agg - f⟩

/-- Result of the outer matching loop over price levels. -/
structure SRes where
  fills : List Fill
  remaining : Decimal
  levels : Side
  lk : Lookup
  agg : Decimal
deriving DecidableEq

/-- The outer `while` loop: walk price levels best-first (the given list is
ordered best price first).  `crosses` is the price-barrier test of step 2b;
for a market order it is constantly true.  A level is dropped when its
`order_count` reaches 0, exactly as `entry.remove()`.  When `order_count`
stays nonzero the Rust loop re-examines the same entry and exits because the
inner loop has driven `remaining` to zero (in every state the program
constructs `order_count` equals the queue length, so a nonzero count means a
nonempty queue). -/
def sweepLevels (taker : OrderId) (crosses : Decimal → Bool) :
    Decimal → Side → Lookup → Decimal → SRes
  | remaining, [], lk, agg => ⟨[], remaining, [], lk, agg⟩
  | remaining, (t, os) :: rest, lk, agg =>
    if remaining ≤ 0 then ⟨[], remaining, (t, os) :: rest, lk, agg⟩
    else if ¬ crosses t.level then ⟨[], remaining, (t, os) :: rest, lk, agg⟩
    else
      let q := matchQueue taker t.level remaining os.orders os.total_volume
        os.order_count lk agg
      if q.cnt = 0 then
        let s := sweepLevels taker crosses q.remaining rest q.lk q.agg
        ⟨q.fills ++ s.fills, s.remaining, s.levels, s.lk, s.agg⟩
      else
        ⟨q.fills, q.remaining, (t, ⟨q.queue, q.tv, q.cnt⟩) :: rest, q.lk, q.agg⟩

/-- Step 3 of `add_limit_order`: rest any remaining quantity on the taker's
own side.  The two `.expect` calls of the source are modelled by returning
`BookErr.panicked`. -/
def OrderBook.restRemaining (b : OrderBook) (order_side : OrderSide) (price : Decimal)
    (order_id : OrderId) (remaining : Decimal) (fills : List Fill) :
    Except BookErr (OrderId × List Fill) × OrderBook :=
  if remaining ≤ 0 then (.ok (order_id, fills), b)
  else
    match Tick.new price b.tick_size with
    | .error _ => (.error .panicked, b)
    | .ok tick =>
      match Order.new order_id remaining .Limit order_side with
      | .error _ => (.error .panicked, b)
      | .ok o =>
        match order_side with
        | .Buy =>
            (.ok (order_id, fills),
              { b with
                total_bid_volume := b.total_bid_volume + remaining
                bids := insertOrder b.bids tick o
                order_lookup := lkInsert b.order_lookup order_id (order_side, tick) })
        | .Sell =>
            (.ok (order_id, fills),
              { b with
                total_ask_volume := b.total_ask_volume + remaining
                asks := insertOrder b.asks tick o
                order_lookup := lkInsert b.order_lookup order_id (order_side, tick) })

/-- `OrderBook::add_limit_order`.  For a Sell taker the source walks the bids
from `last_entry()` (highest first); this is modelled by sweeping the
reversed (descending) list and reversing back. -/
def OrderBook.add_limit_order (b : OrderBook) (order_side : OrderSide)
    (price quantity : Decimal) :
    Except BookErr (OrderId × List Fill) × OrderBook :=
  if price ≤ 0 then (.error .invalidPrice, b)
  else if quantity ≤ 0 then (.error .invalidQuantity, b)
  else
    let order_id := b.next_id
    let b1 := { b with next_id := b.next_id + 1 }
    match order_side with
    | .Buy =>
        let s := sweepLevels order_id (fun lvl => !decide (price < lvl)) quantity
          b1.asks b1.order_lookup b1.total_ask_volume
        let b2 := { b1 with
          asks := s.levels
          order_lookup := s.lk
          total_ask_volume := s.agg }
        b2.restRemaining .Buy price order_id s.remaining s.fills
    | .Sell =>
        let s := sweepLevels order_id (fun lvl => !decide (price > lvl)) quantity
          b1.bids.reverse b1.order_lookup b1.total_bid_volume
        let b2 := { b1 with
          bids := s.levels.reverse
          order_lookup := s.lk
          total_bid_volume := s.agg }
        b2.restRemaining .Sell price order_id s.remaining s.fills

/-- `OrderBook::cancel_limit_order`. -/
def OrderBook.cancel_limit_order (b : OrderBook) (order_id : OrderId) :
    Except BookErr Unit × OrderBook :=
  match lkGet b.order_lookup order_id with
  | none => (.error .notFound, b)
  | some (side, tick) =>
    let book_side := match side with
      | .Buy => b.bids
      | .Sell => b.asks
    match getLevel book_side tick with
    | none => (.error .tickLevelNotFound, b)
    | some orders =>
      match orders.remove_order order_id with
      | .error e => (.error e, b)
      | .ok (removed_order, orders') =>
        let new_side :=
          if orders'.order_count = 0 then eraseLevel book_side tick
          else setLevel book_side tick orders'
        let b' := match side with
          | .Buy => { b with
              bids := new_side
              total_bid_volume := b.total_bid_volume - removed_order.quantity
              order_lookup := lkRemove b.order_lookup order_id }
          | .Sell => { b with
              asks := new_side
              total_ask_volume := b.total_ask_volume - removed_order.quantity
              order_lookup := lkRemove b.order_lookup order_id }
        (.ok (), b')

/-- `OrderBook::execute_market_order`.  The liquidity precheck precedes the
id allocation; on the in-loop `ok_or_else` error the book keeps the
mutations already applied (the fills produced so far), as in Rust. -/
def OrderBook.execute_market_order (b : OrderBook) (side : OrderSide)
    (quantity : Decimal) : Except BookErr (List Fill) × OrderBook :=
  let available := match side with
    | .Buy => b.total_ask_volume
    | .Sell => b.total_bid_volume
  if available < quantity then (.error .insufficientLiquidity, b)
  else
    let market_order_id := b.next_id
    let b1 := { b with next_id := b.next_id + 1 }
    match side with
    | .Buy =>
        let s := sweepLevels market_order_id (fun _ => true) quantity
          b1.asks b1.order_lookup b1.total_ask_volume
        let b2 := { b1 with
          asks := s.levels
          order_lookup := s.lk
          total_ask_volume := s.agg }
        if 0 < s.remaining then (.error .insufficientLiquidity, b2)
        else (.ok s.fills, b2)
    | .Sell =>
        let s := sweepLevels market_order_id (fun _ => true) quantity
          b1.bids.reverse b1.order_lookup b1.total_bid_volume
        let b2 := { b1 with
          bids := s.levels.reverse
          order_lookup := s.lk
          total_bid_volume := s.agg }
        if 0 < s.remaining then (.error .insufficientLiquidity, b2)
        else (.ok s.fills, b2)

/-- `OrderBook::best_bid`: `bids.last_key_value()`. -/
def OrderBook.best_bid (b : OrderBook) : Option Decimal :=
  b.bids.getLast?.map (fun p => p.1.level)

/-- `OrderBook::best_ask`: `asks.first_key_value()`. -/
def OrderBook.best_ask (b : OrderBook) : Option Decimal :=
  b.asks.head?.map (fun p => p.1.level)

/-- `OrderBook::spread`. -/
def OrderBook.spread (b : OrderBook) : Option Decimal :=
  match b.best_ask, b.best_bid with
  | some ask, some bid => some (ask - bid)
  | _, _ => none

/-- `OrderBook::best_prices`. -/
def OrderBook.best_prices (b : OrderBook) : Option Decimal × Option Decimal :=
  (b.best_bid, b.best_ask)

/-- `OrderBook::best_bid_volume`. -/
def OrderBook.best_bid_volume (b : OrderBook) : Option Decimal :=
  b.bids.getLast?.map (fun p => p.2.total_volume)

/-- `OrderBook::best_ask_volume`. -/
def OrderBook.best_ask_volume (b : OrderBook) : Option Decimal :=
  b.asks.head?.map (fun p => p.2.total_volume)

/-- A call into the public mutating interface of the book. -/
inductive BookOp
  | addLimit (side : OrderSide) (price quantity : Decimal)
  | execMarket (side : OrderSide) (quantity : Decimal)
  | cancel (oid : OrderId)

/-- Apply one operation, keeping the post-state (result discarded). -/
def applyOp (b : OrderBook) : BookOp → OrderBook
  | .addLimit s p q => (b.add_limit_order s p q).2
  | .execMarket s q => (b.execute_market_order s q).2
  | .cancel oid => (b.cancel_limit_order oid).2

/-- Run a sequence of operations. -/
def runOps (b : OrderBook) : List BookOp → OrderBook
  | [] => b
  | op :: ops => runOps (applyOp b op) ops

/-- The freshly constructed book with the given tick size. -/
def emptyBook (ts : Decimal) : OrderBook := ⟨ts, [], [], 0, [], 0, 0⟩

/-! ## Concrete books used as counterexamples / failing inputs -/

/-- The book after `add_limit(Sell,100,75)` (id 0) and `add_limit(Buy,100,25)`
(id 1, partially filling id 0): the resting maker keeps its original
quantity 75 while the level volume and aggregate have dropped to 50. -/
def partialFillBook : OrderBook :=
  runOps (emptyBook (1/100)) [.addLimit .Sell 100 75, .addLimit .Buy 100 25]

/-- `partialFillBook` followed by `cancel(0)`. -/
def cancelAfterPartialBook : OrderBook :=
  runOps (emptyBook (1/100))
    [.addLimit .Sell 100 75, .addLimit .Buy 100 25, .cancel 0]

/-- The book after `add_limit(Sell, 100.02, 5)` and `add_limit(Buy, 100.016, 5)`:
the buy does not cross (100.016 < 100.02) but its resting tick normalizes up
to 100.02. -/
def touchBook : OrderBook :=
  runOps (emptyBook (1/100))
    [.addLimit .Sell (10002/100) 5, .addLimit .Buy (100016/1000) 5]

/-! ## Theorems -/

/-- C1 counterexample: after two successful `add_limit` calls both sides are
non-empty with `best_bid = best_ask = 100.02`, so `best_bid < best_ask` fails
and `spread()` is `Some 0`, not strictly positive.  The raw buy price 100.016
passes the cross test against the 100.02 ask but is normalized up to the
100.02 tick on resting. -/
theorem C1_no_cross_counterexample :
    touchBook.best_bid = some (10002/100) ∧
    touchBook.best_ask = some (10002/100) ∧
    touchBook.spread = some 0 := by
  norm_num [touchBook, runOps, applyOp, OrderBook.add_limit_order, sweepLevels,
    matchQueue, OrderBook.restRemaining, Tick.new, Tick.normalize, roundBank,
    Order.new, insertOrder, tickLt, emptyBook, lkInsert, lkRemove, Orders.new,
    Orders.add_order, min_def, Int.floor_eq_iff, OrderBook.spread,
    OrderBook.best_bid, OrderBook.best_ask]

/-- C3 (code bug): on `partialFillBook` the entire ask aggregate is 50, and
`execute_market(Buy, 50)` succeeds with fills summing to 50 and drives the
aggregate to zero, but the ask level map is *not* empty: the partially
filled maker (stale quantity 75) is still resting.  The slip is that the
matching loops never decrement a partially filled head order's quantity. -/
theorem C3_market_full_sweep_violation :
    partialFillBook.total_ask_volume = 50 ∧
    (partialFillBook.execute_market_order .Buy 50).1 = .ok [⟨50, 100, 2, 0⟩] ∧
    (partialFillBook.execute_market_order .Buy 50).2.total_ask_volume = 0 ∧
    (partialFillBook.execute_market_order .Buy 50).2.asks ≠ [] := by
  norm_num [partialFillBook, runOps, applyOp, OrderBook.add_limit_order,
    OrderBook.execute_market_order, sweepLevels, matchQueue,
    OrderBook.restRemaining, Tick.new, Tick.normalize, roundBank, Order.new,
    insertOrder, tickLt, emptyBook, lkInsert, lkRemove, Orders.new,
    Orders.add_order, min_def]

/-- C7 (code bug): the volume-consistency invariant fails after a reachable
operation sequence.  Cancelling the partially filled maker subtracts its
stale original quantity 75, leaving `total_ask_volume = -25` while the ask
side is empty (so the sum of level volumes is 0). -/
theorem C7_aggregate_violation :
    cancelAfterPartialBook.asks = [] ∧
    cancelAfterPartialBook.total_ask_volume = -25 ∧
    cancelAfterPartialBook.total_ask_volume ≠
      (cancelAfterPartialBook.asks.map (fun p => p.2.total_volume)).sum := by
  norm_num [cancelAfterPartialBook, runOps, applyOp, OrderBook.add_limit_order,
    sweepLevels, matchQueue, OrderBook.restRemaining,
    OrderBook.cancel_limit_order, Orders.remove_order, Orders.removeById,
    getLevel, setLevel, eraseLevel, lkGet, Tick.new, Tick.normalize, roundBank,
    Order.new, insertOrder, tickLt, emptyBook, lkInsert, lkRemove, Orders.new,
    Orders.add_order, min_def]

/-- C8: `Tick::new(price, tick_size)` fails exactly when `price ≤ 0` or
`tick_size ≤ 0`, and otherwise returns the tick whose level is
`round(price / tick_size) * tick_size`; with tick size 0.01, price 100.012
yields level 100.01 and price 100.017 yields level 100.02, two distinct
levels. -/
theorem C8_tick_make (price tick_size : Decimal) :
    ((∃ e, Tick.new price tick_size = .error e) ↔ price ≤ 0 ∨ tick_size ≤ 0) ∧
    (0 < price → 0 < tick_size →
      Tick.new price tick_size =
        .ok ⟨(roundBank (price / tick_size) : ℚ) * tick_size, tick_size⟩) ∧
    Tick.new (100012/1000) (1/100) = .ok ⟨10001/100, 1/100⟩ ∧
    Tick.new (100017/1000) (1/100) = .ok ⟨10002/100, 1/100⟩ ∧
    ((10001:ℚ)/100) ≠ ((10002:ℚ)/100) := by
  refine ⟨?_, ?_, ?_, ?_, by norm_num⟩
  · constructor
    · rintro ⟨e, he⟩
      by_contra hcon
      push_neg at hcon
      rw [Tick.new, if_neg (not_le.mpr hcon.1), if_neg (not_le.mpr hcon.2)] at he
      exact Except.noConfusion he
    · intro h
      rw [Tick.new]
      rcases h with h | h
      · rw [if_pos h]; exact ⟨_, rfl⟩
      · by_cases hp : price ≤ 0
        · rw [if_pos hp]; exact ⟨_, rfl⟩
        · rw [if_neg hp, if_pos h]; exact ⟨_, rfl⟩
  · intro hp ht
    rw [Tick.new, if_neg (not_le.mpr hp), if_neg (not_le.mpr ht)]
    rfl
  · norm_num [Tick.new, Tick.normalize, roundBank, Int.floor_eq_iff]
  · norm_num [Tick.new, Tick.normalize, roundBank, Int.floor_eq_iff]

/-- C8 witness. -/
theorem C8_tick_make_witness :
    Tick.new 5 2 = .ok ⟨(roundBank ((5:ℚ) / 2) : ℚ) * 2, 2⟩ :=
  (C8_tick_make 5 2).2.1 (by norm_num) (by norm_num)

/-- C9 counterexample: `Tick::new` can produce two ticks with equal levels
(here both 1) that are *not* equal — the derived `PartialEq` also compares
`tick_size` — and whose derived order is decided by `tick_size`, so neither
equality nor ordering is determined by the level alone. -/
theorem C9_tick_eq_counterexample :
    Tick.new 1 (1/2) = .ok ⟨1, 1/2⟩ ∧
    Tick.new 1 1 = .ok ⟨1, 1⟩ ∧
    (Tick.mk 1 (1/2)).level = (Tick.mk 1 1).level ∧
    Tick.mk 1 (1/2) ≠ Tick.mk 1 1 ∧
    tickLt ⟨1, 1/2⟩ ⟨1, 1⟩ := by
  refine ⟨?_, ?_, rfl, ?_, Or.inr ⟨rfl, by norm_num⟩⟩
  · norm_num [Tick.new, Tick.normalize, roundBank, Int.floor_eq_iff]
  · norm_num [Tick.new, Tick.normalize, roundBank, Int.floor_eq_iff]
  · intro h
    rw [Tick.mk.injEq] at h
    exact absurd h.2 (by norm_num)

/-- C9 amended: the derived `Tick` equality compares `level` and `tick_size`
componentwise, and the derived order is lexicographic on
`(level, tick_size)`; restricted to ticks carrying the same `tick_size` (as
all ticks within one book do) they coincide with equality and order on
levels. -/
theorem C9_tick_order (a b : Tick) :
    (a = b ↔ a.level = b.level ∧ a.tick_size = b.tick_size) ∧
    (tickLt a b ↔
      a.level < b.level ∨ (a.level = b.level ∧ a.tick_size < b.tick_size)) ∧
    (a.tick_size = b.tick_size →
      ((a = b ↔ a.level = b.level) ∧ (tickLt a b ↔ a.level < b.level))) := by
  refine ⟨?_, Iff.rfl, ?_⟩
  · cases a; cases b; simp [Tick.mk.injEq]
  · intro h
    constructor
    · cases a; cases b
      dsimp only at h
      subst h
      simp [Tick.mk.injEq]
    · unfold tickLt
      rw [h]
      constructor
      · rintro (h1 | ⟨h1, h2⟩)
        · exact h1
        · exact absurd h2 (lt_irrefl _)
      · exact Or.inl

/-- C9 witness. -/
theorem C9_tick_order_witness :
    (Tick.mk 1 2 = Tick.mk 3 2 ↔ (1:ℚ) = 3) ∧
    (tickLt ⟨1, 2⟩ ⟨3, 2⟩ ↔ (1:ℚ) < 3) :=
  (C9_tick_order ⟨1, 2⟩ ⟨3, 2⟩).2.2 rfl

/-- If the price and the book's tick size are positive, step 3 of
`add_limit_order` always succeeds: neither `.expect` can fire. -/
theorem restRemaining_fst (b : OrderBook) (side : OrderSide) (price : Decimal)
    (oid : OrderId) (rem : Decimal) (fills : List Fill)
    (hp : 0 < price) (hts : 0 < b.tick_size) :
    (b.restRemaining side price oid rem fills).1 = .ok (oid, fills) := by
  unfold OrderBook.restRemaining
  by_cases hr : rem ≤ 0
  · rw [if_pos hr]
  · rw [if_neg hr, Tick.new, if_neg (not_le.mpr hp), if_neg (not_le.mpr hts),
      Order.new, if_neg hr]
    cases side <;> rfl

/-- Step 3 of `add_limit_order` never yields the panic marker when price and
tick size are positive. -/
theorem restRemaining_no_panic (b : OrderBook) (side : OrderSide)
    (price : Decimal) (oid : OrderId) (rem : Decimal) (fills : List Fill)
    (hp : 0 < price) (hts : 0 < b.tick_size) :
    (b.restRemaining side price oid rem fills).1 ≠ .error .panicked := by
  rw [restRemaining_fst _ _ _ _ _ _ hp hts]
  simp

/-- C10: on a book with positive tick size (as the constructor guarantees),
an `add_limit` call with positive price and quantity never reaches the
error branch of the internal `Tick::new(...).expect` or
`Order::new(...).expect`: the call cannot panic. -/
theorem C10_add_limit_no_panic (b : OrderBook) (side : OrderSide)
    (price quantity : Decimal)
    (hts : 0 < b.tick_size) (hp : 0 < price) (hq : 0 < quantity) :
    (b.add_limit_order side price quantity).1 ≠ .error .panicked := by
  have h1 : ¬ price ≤ 0 := not_le.mpr hp
  have h2 : ¬ quantity ≤ 0 := not_le.mpr hq
  cases side
  · simp only [OrderBook.add_limit_order, if_neg h1, if_neg h2]
    exact restRemaining_no_panic _ .Buy price _ _ _ hp hts
  · simp only [OrderBook.add_limit_order, if_neg h1, if_neg h2]
    exact restRemaining_no_panic _ .Sell price _ _ _ hp hts

/-- C10 witness. -/
theorem C10_add_limit_no_panic_witness :
    ((emptyBook 1).add_limit_order .Buy 100 10).1 ≠ .error .panicked :=
  C10_add_limit_no_panic (emptyBook 1) .Buy 100 10 (by norm_num [emptyBook])
    (by norm_num) (by norm_num)

/-! ## Lemmas about the inner matching loop -/

theorem matchQueue_nil (taker : OrderId) (price remaining tv : Decimal) (cnt : ℕ)
    (lk : Lookup) (agg : Decimal) :
    matchQueue taker price remaining [] tv cnt lk agg =
      ⟨[], remaining, [], tv, cnt, lk, agg⟩ := rfl

theorem matchQueue_cons (taker : OrderId) (price remaining : Decimal) (o : Order)
    (rest : List Order) (tv : Decimal) (cnt : ℕ) (lk : Lookup) (agg : Decimal) :
    matchQueue taker price remaining (o :: rest) tv cnt lk agg =
      if remaining ≤ 0 then ⟨[], remaining, o :: rest, tv, cnt, lk, agg⟩
      else if min remaining o.quantity = o.quantity then
        let out := matchQueue taker price (remaining - min remaining o.quantity)
          rest (tv - min remaining o.quantity) (cnt - 1) (lkRemove lk o.id)
          (agg - min remaining o.quantity)
        ⟨⟨min remaining o.quantity, price, taker, o.id⟩ :: out.fills, out.remaining,
          out.queue, out.tv, out.cnt, out.lk, out.agg⟩
      else
        ⟨[⟨min remaining o.quantity, price, taker, o.id⟩],
          remaining - min remaining o.quantity, o :: rest,
          tv - min remaining o.quantity, cnt, lk,
          agg - min remaining o.quantity⟩ := rfl

/-- The inner loop keeps `order_count` equal to the queue length. -/
theorem matchQueue_cnt_length (taker : OrderId) (price : Decimal) :
    ∀ (queue : List Order) (remaining tv : Decimal) (cnt : ℕ) (lk : Lookup)
      (agg : Decimal), cnt = queue.length →
      (matchQueue taker price remaining queue tv cnt lk agg).cnt =
        (matchQueue taker price remaining queue tv cnt lk agg).queue.length
  | [], remaining, tv, cnt, lk, agg, hc => by
      rw [matchQueue_nil]; simpa using hc
  | o :: rest, remaining, tv, cnt, lk, agg, hc => by
      rw [matchQueue_cons]
      split_ifs with h1 h2
      · simpa using hc
      · dsimp only
        exact matchQueue_cnt_length taker price rest _ _ _ _ _
          (by simp only [List.length_cons] at hc; omega)
      · simpa using hc

/-- The inner loop exits only with nothing left to match or an empty queue. -/
theorem matchQueue_stop (taker : OrderId) (price : Decimal) :
    ∀ (queue : List Order) (remaining tv : Decimal) (cnt : ℕ) (lk : Lookup)
      (agg : Decimal),
      (matchQueue taker price remaining queue tv cnt lk agg).remaining ≤ 0 ∨
        (matchQueue taker price remaining queue tv cnt lk agg).queue = []
  | [], _, _, _, _, _ => Or.inr rfl
  | o :: rest, remaining, tv, cnt, lk, agg => by
      rw [matchQueue_cons]
      split_ifs with h1 h2
      · exact Or.inl h1
      · dsimp only
        exact matchQueue_stop taker price rest _ _ _ _ _
      · left
        dsimp only
        have hm : min remaining o.quantity = remaining := by
          rcases min_choice remaining o.quantity with hm | hm
          · exact hm
          · exact absurd hm h2
        rw [hm]
        linarith

/-- Accounting of the inner loop: fill quantities sum to the consumed
amount, the aggregate and level volume drop by exactly that amount, the
makers are the leading queue entries in FIFO order, and every fill is at
the level's price. -/
theorem matchQueue_main (taker : OrderId) (price : Decimal) :
    ∀ (queue : List Order) (remaining tv : Decimal) (cnt : ℕ) (lk : Lookup)
      (agg : Decimal),
      (((matchQueue taker price remaining queue tv cnt lk agg).fills.map
          Fill.quantity).sum =
        remaining - (matchQueue taker price remaining queue tv cnt lk agg).remaining) ∧
      ((matchQueue taker price remaining queue tv cnt lk agg).agg =
        agg - (remaining - (matchQueue taker price remaining queue tv cnt lk agg).remaining)) ∧
      ((matchQueue taker price remaining queue tv cnt lk agg).tv =
        tv - (remaining - (matchQueue taker price remaining queue tv cnt lk agg).remaining)) ∧
      ((matchQueue taker price remaining queue tv cnt lk agg).fills.map
          Fill.maker_order_id =
        (queue.map Order.id).take
          (matchQueue taker price remaining queue tv cnt lk agg).fills.length) ∧
      (∀ f ∈ (matchQueue taker price remaining queue tv cnt lk agg).fills,
        f.price = price)
  | [], remaining, tv, cnt, lk, agg => by
      rw [matchQueue_nil]; simp
  | o :: rest, remaining, tv, cnt, lk, agg => by
      rw [matchQueue_cons]
      split_ifs with h1 h2
      · simp
      · dsimp only
        obtain ⟨ihsum, ihagg, ihtv, ihmk, ihpr⟩ :=
          matchQueue_main taker price rest (remaining - min remaining o.quantity)
            (tv - min remaining o.quantity) (cnt - 1) (lkRemove lk o.id)
            (agg - min remaining o.quantity)
        refine ⟨?_, ?_, ?_, ?_, ?_⟩
        · simp only [List.map_cons, List.sum_cons, ihsum]; ring
        · rw [ihagg]; ring
        · rw [ihtv]; ring
        · simp only [List.map_cons, List.length_cons, List.take_succ_cons, ihmk]
        · intro f hf
          rcases List.mem_cons.mp hf with hf | hf
          · rw [hf]
          · exact ihpr f hf
      · refine ⟨by simp, by dsimp only; ring, by dsimp only; ring, by simp, ?_⟩
        intro f hf
        simp only [List.mem_singleton] at hf
        rw [hf]

/-- Leftover of the inner loop: what could not be served from this queue. -/
theorem matchQueue_leftover (taker : OrderId) (price : Decimal) :
    ∀ (queue : List Order) (remaining tv : Decimal) (cnt : ℕ) (lk : Lookup)
      (agg : Decimal), 0 ≤ remaining → (∀ o ∈ queue, 0 ≤ o.quantity) →
      (matchQueue taker price remaining queue tv cnt lk agg).remaining =
        remaining - min remaining ((queue.map Order.quantity).sum)
  | [], remaining, tv, cnt, lk, agg, hr, _ => by
      rw [matchQueue_nil]
      simp [min_eq_right hr]
  | o :: rest, remaining, tv, cnt, lk, agg, hr, hq => by
      have hS : 0 ≤ ((rest.map Order.quantity).sum) :=
        List.sum_nonneg (by
          intro x hx
          obtain ⟨a, ha, rfl⟩ := List.mem_map.mp hx
          exact hq a (List.mem_cons_of_mem _ ha))
      have ho : 0 ≤ o.quantity := hq o (List.mem_cons_self _ _)
      rw [matchQueue_cons]
      split_ifs with h1 h2
      · have hr0 : remaining = 0 := le_antisymm h1 hr
        subst hr0
        have hmin : min (0:ℚ) ((List.map Order.quantity (o :: rest)).sum) = 0 := by
          apply min_eq_left
          simp only [List.map_cons, List.sum_cons]
          linarith
        dsimp only
        rw [hmin]
        ring
      · dsimp only
        have hoq : o.quantity ≤ remaining := min_eq_right_iff.mp h2
        rw [matchQueue_leftover taker price rest (remaining - min remaining o.quantity)
          _ _ _ _ (by rw [h2]; linarith)
          (fun a ha => hq a (List.mem_cons_of_mem _ ha))]
        rw [h2]
        simp only [List.map_cons, List.sum_cons]
        rcases le_total (remaining - o.quantity) ((rest.map Order.quantity).sum) with hc | hc
        · rw [min_eq_left hc, min_eq_left (by linarith)]
          ring
        · rw [min_eq_right hc, min_eq_right (by linarith)]
          ring
      · dsimp only
        have hm : min remaining o.quantity = remaining := by
          rcases min_choice remaining o.quantity with hm | hm
          · exact hm
          · exact absurd hm h2
        have hrq : remaining ≤ o.quantity := min_eq_left_iff.mp hm
        rw [hm]
        simp only [List.map_cons, List.sum_cons]
        rw [min_eq_left (by linarith)]

/-- A nonempty queue with positive remaining always produces a fill. -/
theorem matchQueue_fills_nonempty (taker : OrderId) (price : Decimal)
    (o : Order) (rest : List Order) (remaining tv : Decimal) (cnt : ℕ)
    (lk : Lookup) (agg : Decimal) (hr : 0 < remaining) :
    (matchQueue taker price remaining (o :: rest) tv cnt lk agg).fills ≠ [] := by
  rw [matchQueue_cons]
  split_ifs with h1 h2
  · exact absurd h1 (not_le.mpr hr)
  · simp
  · simp

/-! ## Lemmas about the outer matching loop -/

theorem sweepLevels_nil (taker : OrderId) (crosses : Decimal → Bool)
    (remaining : Decimal) (lk : Lookup) (agg : Decimal) :
    sweepLevels taker crosses remaining [] lk agg =
      ⟨[], remaining, [], lk, agg⟩ := rfl

theorem sweepLevels_cons (taker : OrderId) (crosses : Decimal → Bool)
    (remaining : Decimal) (t : Tick) (os : Orders) (rest : Side) (lk : Lookup)
    (agg : Decimal) :
    sweepLevels taker crosses remaining ((t, os) :: rest) lk agg =
      if remaining ≤ 0 then ⟨[], remaining, (t, os) :: rest, lk, agg⟩
      else if ¬ crosses t.level then ⟨[], remaining, (t, os) :: rest, lk, agg⟩
      else
        let q := matchQueue taker t.level remaining os.orders os.total_volume
          os.order_count lk agg
        if q.cnt = 0 then
          let s := sweepLevels taker crosses q.remaining rest q.lk q.agg
          ⟨q.fills ++ s.fills, s.remaining, s.levels, s.lk, s.agg⟩
        else ⟨q.fills, q.remaining, (t, ⟨q.queue, q.tv, q.cnt⟩) :: rest, q.lk, q.agg⟩ := rfl


theorem sweepLevels_cons_stop (taker : OrderId) (crosses : Decimal → Bool)
    (remaining : Decimal) (t : Tick) (os : Orders) (rest : Side) (lk : Lookup)
    (agg : Decimal) (h1 : remaining ≤ 0) :
    sweepLevels taker crosses remaining ((t, os) :: rest) lk agg =
      ⟨[], remaining, (t, os) :: rest, lk, agg⟩ := by
  rw [sweepLevels_cons, if_pos h1]

theorem sweepLevels_cons_barrier (taker : OrderId) (crosses : Decimal → Bool)
    (remaining : Decimal) (t : Tick) (os : Orders) (rest : Side) (lk : Lookup)
    (agg : Decimal) (h1 : ¬ remaining ≤ 0) (h2 : crosses t.level = false) :
    sweepLevels taker crosses remaining ((t, os) :: rest) lk agg =
      ⟨[], remaining, (t, os) :: rest, lk, agg⟩ := by
  rw [sweepLevels_cons, if_neg h1, if_pos (by simp [h2])]

theorem sweepLevels_cons_drop (taker : OrderId) (crosses : Decimal → Bool)
    (remaining : Decimal) (t : Tick) (os : Orders) (rest : Side) (lk : Lookup)
    (agg : Decimal) (h1 : ¬ remaining ≤ 0) (h2 : crosses t.level = true)
    (h3 : (matchQueue taker t.level remaining os.orders os.total_volume
      os.order_count lk agg).cnt = 0) :
    sweepLevels taker crosses remaining ((t, os) :: rest) lk agg =
      ⟨(matchQueue taker t.level remaining os.orders os.total_volume
          os.order_count lk agg).fills ++
        (sweepLevels taker crosses
          (matchQueue taker t.level remaining os.orders os.total_volume
            os.order_count lk agg).remaining rest
          (matchQueue taker t.level remaining os.orders os.total_volume
            os.order_count lk agg).lk
          (matchQueue taker t.level remaining os.orders os.total_volume
            os.order_count lk agg).agg).fills,
        (sweepLevels taker crosses
          (matchQueue taker t.level remaining os.orders os.total_volume
            os.order_count lk agg).remaining rest
          (matchQueue taker t.level remaining os.orders os.total_volume
            os.order_count lk agg).lk
          (matchQueue taker t.level remaining os.orders os.total_volume
            os.order_count lk agg).agg).remaining,
        (sweepLevels taker crosses
          (matchQueue taker t.level remaining os.orders os.total_volume
            os.order_count lk agg).remaining rest
          (matchQueue taker t.level remaining os.orders os.total_volume
            os.order_count lk agg).lk
          (matchQueue taker t.level remaining os.orders os.total_volume
            os.order_count lk agg).agg).levels,
        (sweepLevels taker crosses
          (matchQueue taker t.level remaining os.orders os.total_volume
            os.order_count lk agg).remaining rest
          (matchQueue taker t.level remaining os.orders os.total_volume
            os.order_count lk agg).lk
          (matchQueue taker t.level remaining os.orders os.total_volume
            os.order_count lk agg).agg).lk,
        (sweepLevels taker crosses
          (matchQueue taker t.level remaining os.orders os.total_volume
            os.order_count lk agg).remaining rest
          (matchQueue taker t.level remaining os.orders os.total_volume
            os.order_count lk agg).lk
          (matchQueue taker t.level remaining os.orders os.total_volume
            os.order_count lk agg).agg).agg⟩ := by
  rw [sweepLevels_cons, if_neg h1, if_neg (by simp [h2])]
  dsimp only
  rw [if_pos h3]

theorem sweepLevels_cons_keep (taker : OrderId) (crosses : Decimal → Bool)
    (remaining : Decimal) (t : Tick) (os : Orders) (rest : Side) (lk : Lookup)
    (agg : Decimal) (h1 : ¬ remaining ≤ 0) (h2 : crosses t.level = true)
    (h3 : ¬ (matchQueue taker t.level remaining os.orders os.total_volume
      os.order_count lk agg).cnt = 0) :
    sweepLevels taker crosses remaining ((t, os) :: rest) lk agg =
      ⟨(matchQueue taker t.level remaining os.orders os.total_volume
          os.order_count lk agg).fills,
        (matchQueue taker t.level remaining os.orders os.total_volume
          os.order_count lk agg).remaining,
        (t, ⟨(matchQueue taker t.level remaining os.orders os.total_volume
            os.order_count lk agg).queue,
          (matchQueue taker t.level remaining os.orders os.total_volume
            os.order_count lk agg).tv,
          (matchQueue taker t.level remaining os.orders os.total_volume
            os.order_count lk agg).cnt⟩) :: rest,
        (matchQueue taker t.level remaining os.orders os.total_volume
          os.order_count lk agg).lk,
        (matchQueue taker t.level remaining os.orders os.total_volume
          os.order_count lk agg).agg⟩ := by
  rw [sweepLevels_cons, if_neg h1, if_neg (by simp [h2])]
  dsimp only
  rw [if_neg h3]

/-- The key list of the surviving levels is a tail of the original key list
(the sweep only consumes whole levels from the front, possibly mutating the
value at the first surviving key). -/
theorem sweepLevels_keys (taker : OrderId) (crosses : Decimal → Bool)
    (levels : Side) :
    ∀ (remaining : Decimal) (lk : Lookup) (agg : Decimal),
      ∃ m, (sweepLevels taker crosses remaining levels lk agg).levels.map Prod.fst =
        (levels.map Prod.fst).drop m := by
  induction levels with
  | nil => exact fun remaining lk agg => ⟨0, rfl⟩
  | cons p rest ih =>
    obtain ⟨t, os⟩ := p
    intro remaining lk agg
    by_cases h1 : remaining ≤ 0
    · rw [sweepLevels_cons_stop _ _ _ _ _ _ _ _ h1]
      exact ⟨0, rfl⟩
    · by_cases h2 : crosses t.level
      · by_cases h3 : (matchQueue taker t.level remaining os.orders
            os.total_volume os.order_count lk agg).cnt = 0
        · rw [sweepLevels_cons_drop _ _ _ _ _ _ _ _ h1 h2 h3]
          obtain ⟨m, hm⟩ := ih
            (matchQueue taker t.level remaining os.orders os.total_volume
              os.order_count lk agg).remaining
            (matchQueue taker t.level remaining os.orders os.total_volume
              os.order_count lk agg).lk
            (matchQueue taker t.level remaining os.orders os.total_volume
              os.order_count lk agg).agg
          exact ⟨m + 1, by simpa using hm⟩
        · rw [sweepLevels_cons_keep _ _ _ _ _ _ _ _ h1 h2 h3]
          exact ⟨0, rfl⟩
      · rw [sweepLevels_cons_barrier _ _ _ _ _ _ _ _ h1 (by simpa using h2)]
        exact ⟨0, rfl⟩

/-- Every surviving level satisfies `order_count = queue length` if every
input level did. -/
theorem sweepLevels_cnt_length (taker : OrderId) (crosses : Decimal → Bool)
    (levels : Side) :
    ∀ (remaining : Decimal) (lk : Lookup) (agg : Decimal),
      (∀ p ∈ levels, p.2.order_count = p.2.orders.length) →
      ∀ p ∈ (sweepLevels taker crosses remaining levels lk agg).levels,
        p.2.order_count = p.2.orders.length := by
  induction levels with
  | nil =>
    intro remaining lk agg _ p hp
    rw [sweepLevels_nil] at hp
    exact absurd hp (List.not_mem_nil p)
  | cons pp rest ih =>
    obtain ⟨t, os⟩ := pp
    intro remaining lk agg hc
    by_cases h1 : remaining ≤ 0
    · rw [sweepLevels_cons_stop _ _ _ _ _ _ _ _ h1]
      exact hc
    · by_cases h2 : crosses t.level
      · by_cases h3 : (matchQueue taker t.level remaining os.orders
            os.total_volume os.order_count lk agg).cnt = 0
        · rw [sweepLevels_cons_drop _ _ _ _ _ _ _ _ h1 h2 h3]
          exact ih _ _ _ (fun p hp => hc p (List.mem_cons_of_mem _ hp))
        · rw [sweepLevels_cons_keep _ _ _ _ _ _ _ _ h1 h2 h3]
          intro p hp
          rcases List.mem_cons.mp hp with hp | hp
          · subst hp
            dsimp only
            exact matchQueue_cnt_length taker t.level os.orders remaining
              os.total_volume os.order_count lk agg
              (hc (t, os) (List.mem_cons_self _ _))
          · exact hc p (List.mem_cons_of_mem _ hp)
      · rw [sweepLevels_cons_barrier _ _ _ _ _ _ _ _ h1 (by simpa using h2)]
        exact hc

/-- How the outer loop can stop: nothing left to match, no levels left, or a
price barrier at the first surviving level. -/
theorem sweepLevels_stop (taker : OrderId) (crosses : Decimal → Bool)
    (levels : Side) :
    ∀ (remaining : Decimal) (lk : Lookup) (agg : Decimal),
      (∀ p ∈ levels, p.2.order_count = p.2.orders.length) →
      (sweepLevels taker crosses remaining levels lk agg).remaining ≤ 0 ∨
        (sweepLevels taker crosses remaining levels lk agg).levels = [] ∨
        ∃ t os tl, (sweepLevels taker crosses remaining levels lk agg).levels =
          (t, os) :: tl ∧ crosses t.level = false := by
  induction levels with
  | nil => exact fun remaining lk agg _ => Or.inr (Or.inl rfl)
  | cons pp rest ih =>
    obtain ⟨t, os⟩ := pp
    intro remaining lk agg hc
    by_cases h1 : remaining ≤ 0
    · rw [sweepLevels_cons_stop _ _ _ _ _ _ _ _ h1]
      exact Or.inl h1
    · by_cases h2 : crosses t.level
      · by_cases h3 : (matchQueue taker t.level remaining os.orders
            os.total_volume os.order_count lk agg).cnt = 0
        · rw [sweepLevels_cons_drop _ _ _ _ _ _ _ _ h1 h2 h3]
          exact ih _ _ _ (fun p hp => hc p (List.mem_cons_of_mem _ hp))
        · rw [sweepLevels_cons_keep _ _ _ _ _ _ _ _ h1 h2 h3]
          left
          dsimp only
          have hcl := matchQueue_cnt_length taker t.level os.orders remaining
            os.total_volume os.order_count lk agg
            (hc (t, os) (List.mem_cons_self _ _))
          rcases matchQueue_stop taker t.level os.orders remaining
            os.total_volume os.order_count lk agg with hs | hs
          · exact hs
          · rw [hs] at hcl
            exact absurd hcl (by simpa using h3)
      · rw [sweepLevels_cons_barrier _ _ _ _ _ _ _ _ h1 (by simpa using h2)]
        exact Or.inr (Or.inr ⟨t, os, rest, rfl, by simpa using h2⟩)

/-- Accounting of the outer loop: fill quantities sum to the consumed amount
and the aggregate drops by exactly that amount. -/
theorem sweepLevels_sums (taker : OrderId) (crosses : Decimal → Bool)
    (levels : Side) :
    ∀ (remaining : Decimal) (lk : Lookup) (agg : Decimal),
      (((sweepLevels taker crosses remaining levels lk agg).fills.map
          Fill.quantity).sum =
        remaining - (sweepLevels taker crosses remaining levels lk agg).remaining) ∧
      ((sweepLevels taker crosses remaining levels lk agg).agg =
        agg - (remaining -
          (sweepLevels taker crosses remaining levels lk agg).remaining)) := by
  induction levels with
  | nil =>
    intro remaining lk agg
    rw [sweepLevels_nil]
    simp
  | cons pp rest ih =>
    obtain ⟨t, os⟩ := pp
    intro remaining lk agg
    by_cases h1 : remaining ≤ 0
    · rw [sweepLevels_cons_stop _ _ _ _ _ _ _ _ h1]
      simp
    · by_cases h2 : crosses t.level
      · obtain ⟨qsum, qagg, _, _, _⟩ := matchQueue_main taker t.level os.orders
          remaining os.total_volume os.order_count lk agg
        by_cases h3 : (matchQueue taker t.level remaining os.orders
            os.total_volume os.order_count lk agg).cnt = 0
        · rw [sweepLevels_cons_drop _ _ _ _ _ _ _ _ h1 h2 h3]
          obtain ⟨ssum, sagg⟩ := ih
            (matchQueue taker t.level remaining os.orders os.total_volume
              os.order_count lk agg).remaining
            (matchQueue taker t.level remaining os.orders os.total_volume
              os.order_count lk agg).lk
            (matchQueue taker t.level remaining os.orders os.total_volume
              os.order_count lk agg).agg
          dsimp only
          constructor
          · rw [List.map_append, List.sum_append, qsum, ssum]
            ring
          · rw [sagg, qagg]
            ring
        · rw [sweepLevels_cons_keep _ _ _ _ _ _ _ _ h1 h2 h3]
          exact ⟨qsum, qagg⟩
      · rw [sweepLevels_cons_barrier _ _ _ _ _ _ _ _ h1 (by simpa using h2)]
        simp

/-- Total order quantity stored in a list of levels. -/
def levelsQty (levels : Side) : Decimal :=
  (levels.map (fun p => ((p.2.orders.map Order.quantity).sum))).sum

theorem levelsQty_nonneg (levels : Side)
    (hq : ∀ p ∈ levels, ∀ o ∈ p.2.orders, 0 ≤ o.quantity) :
    0 ≤ levelsQty levels := by
  apply List.sum_nonneg
  intro x hx
  obtain ⟨p, hp, rfl⟩ := List.mem_map.mp hx
  exact List.sum_nonneg (by
    intro y hy
    obtain ⟨a, ha, rfl⟩ := List.mem_map.mp hy
    exact hq p hp a ha)

/-- Leftover of a barrier-free sweep (market order): everything the side can
serve is served. -/
theorem sweepLevels_leftover (taker : OrderId) (levels : Side) :
    ∀ (remaining : Decimal) (lk : Lookup) (agg : Decimal),
      0 ≤ remaining →
      (∀ p ∈ levels, p.2.order_count = p.2.orders.length) →
      (∀ p ∈ levels, ∀ o ∈ p.2.orders, 0 ≤ o.quantity) →
      (sweepLevels taker (fun _ => true) remaining levels lk agg).remaining =
        remaining - min remaining (levelsQty levels) := by
  induction levels with
  | nil =>
    intro remaining lk agg hr _ _
    rw [sweepLevels_nil]
    simp [levelsQty, min_eq_right hr]
  | cons pp rest ih =>
    obtain ⟨t, os⟩ := pp
    intro remaining lk agg hr hc hq
    have hqt : 0 ≤ (os.orders.map Order.quantity).sum :=
      List.sum_nonneg (by
        intro x hx
        obtain ⟨a, ha, rfl⟩ := List.mem_map.mp hx
        exact hq (t, os) (List.mem_cons_self _ _) a ha)
    have hqr : 0 ≤ levelsQty rest :=
      levelsQty_nonneg rest (fun p hp => hq p (List.mem_cons_of_mem _ hp))
    have hql : levelsQty ((t, os) :: rest) =
        (os.orders.map Order.quantity).sum + levelsQty rest := by
      simp [levelsQty]
    by_cases h1 : remaining ≤ 0
    · have hr0 : remaining = 0 := le_antisymm h1 hr
      subst hr0
      rw [sweepLevels_cons_stop _ _ _ _ _ _ _ _ h1]
      dsimp only
      rw [min_eq_left (by rw [hql]; linarith)]
      ring
    · have hmq : (matchQueue taker t.level remaining os.orders os.total_volume
          os.order_count lk agg).remaining =
          remaining - min remaining ((os.orders.map Order.quantity).sum) :=
        matchQueue_leftover taker t.level os.orders remaining os.total_volume
          os.order_count lk agg hr (hq (t, os) (List.mem_cons_self _ _))
      have hge : 0 ≤ (matchQueue taker t.level remaining os.orders
          os.total_volume os.order_count lk agg).remaining := by
        rw [hmq]
        linarith [min_le_left remaining ((os.orders.map Order.quantity).sum)]
      by_cases h3 : (matchQueue taker t.level remaining os.orders
          os.total_volume os.order_count lk agg).cnt = 0
      · rw [sweepLevels_cons_drop _ _ _ _ _ _ _ _ h1 (rfl) h3]
        dsimp only
        rw [ih _ _ _ hge (fun p hp => hc p (List.mem_cons_of_mem _ hp))
          (fun p hp => hq p (List.mem_cons_of_mem _ hp))]
        rw [hmq, hql]
        rcases le_total remaining ((os.orders.map Order.quantity).sum) with hcm | hcm
        · rw [min_eq_left hcm]
          have he : remaining - remaining = 0 := by ring
          rw [he, min_eq_left hqr, min_eq_left (by linarith)]
          ring
        · rw [min_eq_right hcm]
          rcases le_total (remaining - (os.orders.map Order.quantity).sum)
            (levelsQty rest) with hd | hd
          · rw [min_eq_left hd, min_eq_left (by linarith)]
            ring
          · rw [min_eq_right hd, min_eq_right (by linarith)]
            ring
      · rw [sweepLevels_cons_keep _ _ _ _ _ _ _ _ h1 (rfl) h3]
        dsimp only
        have hcl := matchQueue_cnt_length taker t.level os.orders remaining
          os.total_volume os.order_count lk agg
          (hc (t, os) (List.mem_cons_self _ _))
        have hstop : (matchQueue taker t.level remaining os.orders
            os.total_volume os.order_count lk agg).remaining ≤ 0 := by
          rcases matchQueue_stop taker t.level os.orders remaining
            os.total_volume os.order_count lk agg with hs | hs
          · exact hs
          · rw [hs] at hcl
            exact absurd hcl (by simpa using h3)
        have h0 : (matchQueue taker t.level remaining os.orders os.total_volume
            os.order_count lk agg).remaining = 0 := le_antisymm hstop hge
        rw [h0]
        rw [h0] at hmq
        have hrq : remaining ≤ (os.orders.map Order.quantity).sum := by
          by_contra hcon
          push_neg at hcon
          rw [min_eq_right (le_of_lt hcon)] at hmq
          linarith
        rw [hql, min_eq_left (by linarith)]
        ring

/-- A sweep that produced no fills moved nothing: positive remaining and
nonempty queues force either an immediate barrier or an empty side. -/
theorem sweepLevels_no_fills (taker : OrderId) (crosses : Decimal → Bool)
    (levels : Side) (remaining : Decimal) (lk : Lookup) (agg : Decimal)
    (hr : 0 < remaining)
    (hne : ∀ p ∈ levels, p.2.orders ≠ [])
    (hf : (sweepLevels taker crosses remaining levels lk agg).fills = []) :
    sweepLevels taker crosses remaining levels lk agg =
      ⟨[], remaining, levels, lk, agg⟩ := by
  cases levels with
  | nil => rw [sweepLevels_nil]
  | cons pp rest =>
    obtain ⟨t, os⟩ := pp
    have h1 : ¬ remaining ≤ 0 := not_le.mpr hr
    by_cases h2 : crosses t.level
    · exfalso
      have hqne : os.orders ≠ [] := hne (t, os) (List.mem_cons_self _ _)
      obtain ⟨o, q, ho⟩ : ∃ o q, os.orders = o :: q := by
        cases hoq : os.orders with
        | nil => exact absurd hoq hqne
        | cons o q => exact ⟨o, q, rfl⟩
      have hfq : (matchQueue taker t.level remaining os.orders os.total_volume
          os.order_count lk agg).fills ≠ [] := by
        rw [ho]
        exact matchQueue_fills_nonempty taker t.level o q remaining
          os.total_volume os.order_count lk agg hr
      by_cases h3 : (matchQueue taker t.level remaining os.orders
          os.total_volume os.order_count lk agg).cnt = 0
      · rw [sweepLevels_cons_drop _ _ _ _ _ _ _ _ h1 h2 h3] at hf
        dsimp only at hf
        exact hfq (List.append_eq_nil.mp hf).1
      · rw [sweepLevels_cons_keep _ _ _ _ _ _ _ _ h1 h2 h3] at hf
        exact hfq hf
    · rw [sweepLevels_cons_barrier _ _ _ _ _ _ _ _ h1 (by simpa using h2)]

/-- Every fill of a sweep is priced at the level of some input level. -/
theorem sweepLevels_prices (taker : OrderId) (crosses : Decimal → Bool)
    (levels : Side) :
    ∀ (remaining : Decimal) (lk : Lookup) (agg : Decimal),
      ∀ f ∈ (sweepLevels taker crosses remaining levels lk agg).fills,
        ∃ p, p ∈ levels ∧ f.price = p.1.level := by
  induction levels with
  | nil =>
    intro remaining lk agg f hf
    rw [sweepLevels_nil] at hf
    exact absurd hf (List.not_mem_nil f)
  | cons pp rest ih =>
    obtain ⟨t, os⟩ := pp
    intro remaining lk agg f hf
    by_cases h1 : remaining ≤ 0
    · rw [sweepLevels_cons_stop _ _ _ _ _ _ _ _ h1] at hf
      exact absurd hf (List.not_mem_nil f)
    · by_cases h2 : crosses t.level
      · obtain ⟨_, _, _, _, qpr⟩ := matchQueue_main taker t.level os.orders
          remaining os.total_volume os.order_count lk agg
        by_cases h3 : (matchQueue taker t.level remaining os.orders
            os.total_volume os.order_count lk agg).cnt = 0
        · rw [sweepLevels_cons_drop _ _ _ _ _ _ _ _ h1 h2 h3] at hf
          dsimp only at hf
          rcases List.mem_append.mp hf with hf | hf
          · exact ⟨(t, os), List.mem_cons_self _ _, qpr f hf⟩
          · obtain ⟨p, hp, hpr⟩ := ih _ _ _ f hf
            exact ⟨p, List.mem_cons_of_mem _ hp, hpr⟩
        · rw [sweepLevels_cons_keep _ _ _ _ _ _ _ _ h1 h2 h3] at hf
          exact ⟨(t, os), List.mem_cons_self _ _, qpr f hf⟩
      · rw [sweepLevels_cons_barrier _ _ _ _ _ _ _ _ h1 (by simpa using h2)] at hf
        exact absurd hf (List.not_mem_nil f)

/-- Fill prices follow the level order: if the input levels' prices are
pairwise related by `r` (strict ascending for asks, strict descending for
bids), consecutive fill prices are equal or related by `r`. -/
theorem sweepLevels_fills_pairwise (taker : OrderId) (crosses : Decimal → Bool)
    (r : Decimal → Decimal → Prop) (levels : Side) :
    ∀ (remaining : Decimal) (lk : Lookup) (agg : Decimal),
      (levels.map (fun p => p.1.level)).Pairwise r →
      ((sweepLevels taker crosses remaining levels lk agg).fills.map
        Fill.price).Pairwise (fun a b => a = b ∨ r a b) := by
  induction levels with
  | nil =>
    intro remaining lk agg _
    rw [sweepLevels_nil]
    exact List.Pairwise.nil
  | cons pp rest ih =>
    obtain ⟨t, os⟩ := pp
    intro remaining lk agg hpw
    rw [List.map_cons, List.pairwise_cons] at hpw
    by_cases h1 : remaining ≤ 0
    · rw [sweepLevels_cons_stop _ _ _ _ _ _ _ _ h1]
      exact List.Pairwise.nil
    · by_cases h2 : crosses t.level
      · obtain ⟨_, _, _, _, qpr⟩ := matchQueue_main taker t.level os.orders
          remaining os.total_volume os.order_count lk agg
        have hqblock : ∀ x ∈ ((matchQueue taker t.level remaining os.orders
            os.total_volume os.order_count lk agg).fills.map Fill.price),
            x = t.level := by
          intro x hx
          obtain ⟨f, hf, rfl⟩ := List.mem_map.mp hx
          exact qpr f hf
        by_cases h3 : (matchQueue taker t.level remaining os.orders
            os.total_volume os.order_count lk agg).cnt = 0
        · rw [sweepLevels_cons_drop _ _ _ _ _ _ _ _ h1 h2 h3]
          dsimp only
          rw [List.map_append, List.pairwise_append]
          refine ⟨List.pairwise_of_forall_mem_list ?_, ih _ _ _ hpw.2, ?_⟩
          · intro a ha b hb
            rw [hqblock a ha, hqblock b hb]
            exact Or.inl rfl
          · intro a ha b hb
            rw [hqblock a ha]
            obtain ⟨f, hf, rfl⟩ := List.mem_map.mp hb
            obtain ⟨p, hp, hpr⟩ := sweepLevels_prices taker crosses rest _ _ _ f hf
            rw [hpr]
            exact Or.inr (hpw.1 p.1.level (List.mem_map_of_mem _ hp))
        · rw [sweepLevels_cons_keep _ _ _ _ _ _ _ _ h1 h2 h3]
          exact List.pairwise_of_forall_mem_list (by
            intro a ha b hb
            rw [hqblock a ha, hqblock b hb]
            exact Or.inl rfl)
      · rw [sweepLevels_cons_barrier _ _ _ _ _ _ _ _ h1 (by simpa using h2)]
        exact List.Pairwise.nil

/-- FIFO within a level: for every input level, the makers of the fills
priced at that level are exactly a leading segment of that level's queue, in
queue order.  Requires the input level prices to be pairwise distinct. -/
theorem sweepLevels_fills_fifo (taker : OrderId) (crosses : Decimal → Bool)
    (levels : Side) :
    ∀ (remaining : Decimal) (lk : Lookup) (agg : Decimal),
      (levels.map (fun p => p.1.level)).Pairwise (fun a b => a ≠ b) →
      ∀ t os, (t, os) ∈ levels →
        (((sweepLevels taker crosses remaining levels lk agg).fills.filter
          (fun f => decide (f.price = t.level))).map Fill.maker_order_id =
        (os.orders.map Order.id).take
          (((sweepLevels taker crosses remaining levels lk agg).fills.filter
            (fun f => decide (f.price = t.level))).length)) := by
  induction levels with
  | nil =>
    intro remaining lk agg _ t os hmem
    exact absurd hmem (List.not_mem_nil _)
  | cons pp rest ih =>
    obtain ⟨t0, os0⟩ := pp
    intro remaining lk agg hpw t os hmem
    rw [List.map_cons, List.pairwise_cons] at hpw
    by_cases h1 : remaining ≤ 0
    · rw [sweepLevels_cons_stop _ _ _ _ _ _ _ _ h1]
      simp
    · by_cases h2 : crosses t0.level
      · obtain ⟨_, _, _, qmk, qpr⟩ := matchQueue_main taker t0.level os0.orders
          remaining os0.total_volume os0.order_count lk agg
        rcases List.mem_cons.mp hmem with hmem | hmem
        · -- the target level is the swept head
          have ht : t = t0 := congrArg Prod.fst hmem
          have hos : os = os0 := congrArg Prod.snd hmem
          subst ht
          subst hos
          have hfilter_q : ((matchQueue taker t.level remaining os.orders
              os.total_volume os.order_count lk agg).fills.filter
                (fun f => decide (f.price = t.level))) =
              (matchQueue taker t.level remaining os.orders os.total_volume
                os.order_count lk agg).fills := by
            apply List.filter_eq_self.mpr
            intro a ha
            simp [qpr a ha]
          by_cases h3 : (matchQueue taker t.level remaining os.orders
              os.total_volume os.order_count lk agg).cnt = 0
          · rw [sweepLevels_cons_drop _ _ _ _ _ _ _ _ h1 h2 h3]
            dsimp only
            rw [List.filter_append, hfilter_q]
            have hfilter_s : ((sweepLevels taker crosses
                (matchQueue taker t.level remaining os.orders os.total_volume
                  os.order_count lk agg).remaining rest
                (matchQueue taker t.level remaining os.orders os.total_volume
                  os.order_count lk agg).lk
                (matchQueue taker t.level remaining os.orders os.total_volume
                  os.order_count lk agg).agg).fills.filter
                  (fun f => decide (f.price = t.level))) = [] := by
              apply List.filter_eq_nil_iff.mpr
              intro f hf
              obtain ⟨p, hp, hpr⟩ := sweepLevels_prices taker crosses rest _ _ _ f hf
              rw [hpr]
              simpa using (hpw.1 p.1.level (List.mem_map_of_mem _ hp)).symm
            rw [hfilter_s, List.append_nil]
            exact qmk
          · rw [sweepLevels_cons_keep _ _ _ _ _ _ _ _ h1 h2 h3]
            dsimp only
            rw [hfilter_q]
            exact qmk
        · -- the target level sits behind the swept head
          have hne : t0.level ≠ t.level :=
            hpw.1 t.level (List.mem_map_of_mem _ hmem)
          have hfilter_q : ((matchQueue taker t0.level remaining os0.orders
              os0.total_volume os0.order_count lk agg).fills.filter
                (fun f => decide (f.price = t.level))) = [] := by
            apply List.filter_eq_nil_iff.mpr
            intro f hf
            rw [qpr f hf]
            simpa using hne
          by_cases h3 : (matchQueue taker t0.level remaining os0.orders
              os0.total_volume os0.order_count lk agg).cnt = 0
          · rw [sweepLevels_cons_drop _ _ _ _ _ _ _ _ h1 h2 h3]
            dsimp only
            rw [List.filter_append, hfilter_q, List.nil_append]
            exact ih _ _ _ hpw.2 t os hmem
          · rw [sweepLevels_cons_keep _ _ _ _ _ _ _ _ h1 h2 h3]
            dsimp only
            rw [hfilter_q]
            simp
      · rw [sweepLevels_cons_barrier _ _ _ _ _ _ _ _ h1 (by simpa using h2)]
        simp

/-- Inversion: a successful step 3 returns exactly the id and fills it was
given. -/
theorem restRemaining_ok_inv (b : OrderBook) (side : OrderSide) (price : Decimal)
    (oid : OrderId) (rem : Decimal) (fl : List Fill) (r : OrderId × List Fill)
    (h : (b.restRemaining side price oid rem fl).1 = .ok r) : r = (oid, fl) := by
  unfold OrderBook.restRemaining at h
  by_cases h1 : rem ≤ 0
  · rw [if_pos h1] at h
    simpa [eq_comm] using h
  · rw [if_neg h1] at h
    cases htick : Tick.new price b.tick_size with
    | error e => rw [htick] at h; simp at h
    | ok tick =>
      rw [htick] at h
      cases horder : Order.new oid rem .Limit side with
      | error e => rw [horder] at h; simp at h
      | ok o =>
        rw [horder] at h
        cases side <;> simpa [eq_comm] using h

/-- Inversion: the fills of a successful Buy `add_limit` are the fills of
the sweep over the asks. -/
theorem add_limit_buy_fills (b : OrderBook) (price quantity : Decimal)
    (oid : OrderId) (fills : List Fill)
    (hok : (b.add_limit_order .Buy price quantity).1 = .ok (oid, fills)) :
    fills = (sweepLevels b.next_id (fun lvl => !decide (price < lvl)) quantity
      b.asks b.order_lookup b.total_ask_volume).fills := by
  by_cases hp : price ≤ 0
  · rw [OrderBook.add_limit_order, if_pos hp] at hok
    simp at hok
  · by_cases hq : quantity ≤ 0
    · rw [OrderBook.add_limit_order, if_neg hp, if_pos hq] at hok
      simp at hok
    · rw [OrderBook.add_limit_order, if_neg hp, if_neg hq] at hok
      dsimp only at hok
      have := restRemaining_ok_inv _ _ _ _ _ _ _ hok
      exact congrArg Prod.snd this

/-- Inversion: the fills of a successful Sell `add_limit` are the fills of
the sweep over the reversed (descending) bids. -/
theorem add_limit_sell_fills (b : OrderBook) (price quantity : Decimal)
    (oid : OrderId) (fills : List Fill)
    (hok : (b.add_limit_order .Sell price quantity).1 = .ok (oid, fills)) :
    fills = (sweepLevels b.next_id (fun lvl => !decide (price > lvl)) quantity
      b.bids.reverse b.order_lookup b.total_bid_volume).fills := by
  by_cases hp : price ≤ 0
  · rw [OrderBook.add_limit_order, if_pos hp] at hok
    simp at hok
  · by_cases hq : quantity ≤ 0
    · rw [OrderBook.add_limit_order, if_neg hp, if_pos hq] at hok
      simp at hok
    · rw [OrderBook.add_limit_order, if_neg hp, if_neg hq] at hok
      dsimp only at hok
      have := restRemaining_ok_inv _ _ _ _ _ _ _ hok
      exact congrArg Prod.snd this

/-- The ask book of §8 scenario 2: Sell 100×50 (id 0), Sell 100×25 (id 1),
Sell 101×75 (id 2). -/
def sweepExampleBook : OrderBook :=
  runOps (emptyBook (1/100))
    [.addLimit .Sell 100 50, .addLimit .Sell 100 25, .addLimit .Sell 101 75]

/-- C2: fills of one `add_limit` are in strict price-then-time order.
Concretely, on the preloaded ask book, `add_limit(Buy, 101, 100)` returns
id 3 with exactly the three claimed fills in order.  In general (for both
taker sides, on any book whose resting side has strictly sorted levels),
fill prices move monotonically away from the best opposing price, and the
makers filled at each resting level are a leading segment of that level's
FIFO queue, in queue order. -/
theorem C2_fill_ordering :
    ((sweepExampleBook.add_limit_order .Buy 101 100).1 =
      .ok (3, [⟨50, 100, 3, 0⟩, ⟨25, 100, 3, 1⟩, ⟨25, 101, 3, 2⟩])) ∧
    (∀ (b : OrderBook) (price quantity : Decimal) (oid : OrderId)
      (fills : List Fill),
      (b.asks.map (fun p => p.1.level)).Pairwise (· < ·) →
      (b.add_limit_order .Buy price quantity).1 = .ok (oid, fills) →
      ((fills.map Fill.price).Pairwise (· ≤ ·) ∧
       ∀ t os, (t, os) ∈ b.asks →
         ((fills.filter (fun f => decide (f.price = t.level))).map
            Fill.maker_order_id =
          (os.orders.map Order.id).take
            ((fills.filter (fun f => decide (f.price = t.level))).length)))) ∧
    (∀ (b : OrderBook) (price quantity : Decimal) (oid : OrderId)
      (fills : List Fill),
      (b.bids.map (fun p => p.1.level)).Pairwise (· < ·) →
      (b.add_limit_order .Sell price quantity).1 = .ok (oid, fills) →
      ((fills.map Fill.price).Pairwise (· ≥ ·) ∧
       ∀ t os, (t, os) ∈ b.bids →
         ((fills.filter (fun f => decide (f.price = t.level))).map
            Fill.maker_order_id =
          (os.orders.map Order.id).take
            ((fills.filter (fun f => decide (f.price = t.level))).length)))) := by
  refine ⟨?_, ?_, ?_⟩
  · norm_num [sweepExampleBook, runOps, applyOp, OrderBook.add_limit_order,
      sweepLevels, matchQueue, OrderBook.restRemaining, Tick.new,
      Tick.normalize, roundBank, Order.new, insertOrder, tickLt, emptyBook,
      lkInsert, lkRemove, Orders.new, Orders.add_order, min_def]
  · intro b price quantity oid fills hpw hok
    have hf := add_limit_buy_fills b price quantity oid fills hok
    subst hf
    constructor
    · have := sweepLevels_fills_pairwise b.next_id
        (fun lvl => !decide (price < lvl)) (· < ·) b.asks quantity
        b.order_lookup b.total_ask_volume hpw
      exact this.imp (fun hab => by
        rcases hab with hab | hab
        · exact le_of_eq hab
        · exact le_of_lt hab)
    · intro t os hmem
      exact sweepLevels_fills_fifo b.next_id (fun lvl => !decide (price < lvl))
        b.asks quantity b.order_lookup b.total_ask_volume
        (hpw.imp ne_of_lt) t os hmem
  · intro b price quantity oid fills hpw hok
    have hf := add_limit_sell_fills b price quantity oid fills hok
    subst hf
    have hpwrev : ((b.bids.reverse).map (fun p => p.1.level)).Pairwise
        (fun a b => b < a) := by
      rw [List.map_reverse, List.pairwise_reverse]
      exact hpw
    constructor
    · have := sweepLevels_fills_pairwise b.next_id
        (fun lvl => !decide (price > lvl)) (fun a b => b < a) b.bids.reverse
        quantity b.order_lookup b.total_bid_volume hpwrev
      exact this.imp (fun hab => by
        rcases hab with hab | hab
        · exact le_of_eq hab.symm
        · exact le_of_lt hab)
    · intro t os hmem
      exact sweepLevels_fills_fifo b.next_id (fun lvl => !decide (price > lvl))
        b.bids.reverse quantity b.order_lookup b.total_bid_volume
        (hpwrev.imp (fun hab => ne_of_gt hab)) t os
        (List.mem_reverse.mpr hmem)

/-- C2 witness: the general ordering statements instantiated on the concrete
multi-level sweep. -/
theorem C2_fill_ordering_witness :
    ((([⟨50, 100, 3, 0⟩, ⟨25, 100, 3, 1⟩, ⟨25, 101, 3, 2⟩] : List Fill).map
      Fill.price).Pairwise (· ≤ ·)) := by
  have hpw : (sweepExampleBook.asks.map (fun p => p.1.level)).Pairwise
      (· < ·) := by
    norm_num [sweepExampleBook, runOps, applyOp, OrderBook.add_limit_order,
      sweepLevels, matchQueue, OrderBook.restRemaining, Tick.new,
      Tick.normalize, roundBank, Order.new, insertOrder, tickLt, emptyBook,
      lkInsert, lkRemove, Orders.new, Orders.add_order, min_def]
  have hok : (sweepExampleBook.add_limit_order .Buy 101 100).1 =
      .ok (3, [⟨50, 100, 3, 0⟩, ⟨25, 100, 3, 1⟩, ⟨25, 101, 3, 2⟩]) :=
    C2_fill_ordering.1
  exact (C2_fill_ordering.2.1 sweepExampleBook 101 100 3
    [⟨50, 100, 3, 0⟩, ⟨25, 100, 3, 1⟩, ⟨25, 101, 3, 2⟩] hpw hok).1

/-- The side a market/limit taker matches against (`book_side` in the
source). -/
def oppositeLevels (b : OrderBook) : OrderSide → Side
  | .Buy => b.asks
  | .Sell => b.bids

/-- The `available` precheck quantity of `execute_market_order`. -/
def availableVol (b : OrderBook) : OrderSide → Decimal
  | .Buy => b.total_ask_volume
  | .Sell => b.total_bid_volume

/-- A sweep with nothing to serve is the identity. -/
theorem sweepLevels_stop_le (taker : OrderId) (crosses : Decimal → Bool)
    (levels : Side) (remaining : Decimal) (lk : Lookup) (agg : Decimal)
    (h : remaining ≤ 0) :
    sweepLevels taker crosses remaining levels lk agg =
      ⟨[], remaining, levels, lk, agg⟩ := by
  cases levels with
  | nil => rw [sweepLevels_nil]
  | cons pp rest =>
    obtain ⟨t, os⟩ := pp
    exact sweepLevels_cons_stop _ _ _ _ _ _ _ _ h

/-- Step 3 of `add_limit_order` cannot fail at all when price and tick size
are positive. -/
theorem restRemaining_not_error (b : OrderBook) (side : OrderSide)
    (price : Decimal) (oid : OrderId) (rem : Decimal) (fills : List Fill)
    (hp : 0 < price) (hts : 0 < b.tick_size) (e : BookErr) :
    (b.restRemaining side price oid rem fills).1 ≠ .error e := by
  rw [restRemaining_fst _ _ _ _ _ _ hp hts]
  simp

/-- `cancel_limit_order` either fails leaving the book untouched or
succeeds. -/
theorem cancel_cases (b : OrderBook) (oid : OrderId) :
    (∃ e, b.cancel_limit_order oid = (.error e, b)) ∨
    (b.cancel_limit_order oid).1 = .ok () := by
  unfold OrderBook.cancel_limit_order
  cases hg : lkGet b.order_lookup oid with
  | none => exact Or.inl ⟨.notFound, rfl⟩
  | some v =>
    obtain ⟨sd, tk⟩ := v
    cases sd
    · dsimp only
      cases hl : getLevel b.bids tk with
      | none => exact Or.inl ⟨.tickLevelNotFound, rfl⟩
      | some lvl =>
        dsimp only
        cases hrm : lvl.remove_order oid with
        | error e => exact Or.inl ⟨e, rfl⟩
        | ok pr => exact Or.inr rfl
    · dsimp only
      cases hl : getLevel b.asks tk with
      | none => exact Or.inl ⟨.tickLevelNotFound, rfl⟩
      | some lvl =>
        dsimp only
        cases hrm : lvl.remove_order oid with
        | error e => exact Or.inl ⟨e, rfl⟩
        | ok pr => exact Or.inr rfl

/-- When the liquidity precheck passes and the aggregate does not overstate
the deliverable volume on the opposite side, `execute_market_order`
succeeds; its fills sum to the requested quantity whenever that quantity is
positive. -/
theorem execute_market_characterize (b : OrderBook) (side : OrderSide)
    (quantity : Decimal)
    (hcnt : ∀ p ∈ oppositeLevels b side, p.2.order_count = p.2.orders.length)
    (hpos : ∀ p ∈ oppositeLevels b side, ∀ o ∈ p.2.orders, 0 ≤ o.quantity)
    (hsum : availableVol b side ≤ levelsQty (oppositeLevels b side))
    (hpre : ¬ availableVol b side < quantity) :
    ∃ fills, (b.execute_market_order side quantity).1 = .ok fills ∧
      ((fills.map Fill.quantity).sum = quantity ∨ quantity ≤ 0) := by
  by_cases hq : quantity ≤ 0
  · cases side
    · dsimp only [availableVol] at hpre
      refine ⟨[], ?_, Or.inr hq⟩
      simp only [OrderBook.execute_market_order]
      rw [if_neg hpre, sweepLevels_stop_le _ _ _ _ _ _ hq,
        if_neg (not_lt.mpr hq)]
    · dsimp only [availableVol] at hpre
      refine ⟨[], ?_, Or.inr hq⟩
      simp only [OrderBook.execute_market_order]
      rw [if_neg hpre, sweepLevels_stop_le _ _ _ _ _ _ hq,
        if_neg (not_lt.mpr hq)]
  · push_neg at hq
    cases side
    · dsimp only [oppositeLevels, availableVol] at hcnt hpos hsum hpre
      have hleft : (sweepLevels b.next_id (fun _ => true) quantity b.asks
          b.order_lookup b.total_ask_volume).remaining = 0 := by
        rw [sweepLevels_leftover b.next_id b.asks quantity b.order_lookup
          b.total_ask_volume (le_of_lt hq) hcnt hpos]
        rw [min_eq_left (le_trans (not_lt.mp hpre) hsum)]
        ring
      refine ⟨(sweepLevels b.next_id (fun _ => true) quantity b.asks
        b.order_lookup b.total_ask_volume).fills, ?_, Or.inl ?_⟩
      · simp only [OrderBook.execute_market_order]
        rw [if_neg hpre, if_neg (by rw [hleft]; norm_num)]
      · have := (sweepLevels_sums b.next_id (fun _ => true) b.asks quantity
          b.order_lookup b.total_ask_volume).1
        rw [hleft] at this
        simpa using this
    · dsimp only [oppositeLevels, availableVol] at hcnt hpos hsum hpre
      have hcnt' : ∀ p ∈ b.bids.reverse, p.2.order_count = p.2.orders.length :=
        fun p hp => hcnt p (List.mem_reverse.mp hp)
      have hpos' : ∀ p ∈ b.bids.reverse, ∀ o ∈ p.2.orders, 0 ≤ o.quantity :=
        fun p hp => hpos p (List.mem_reverse.mp hp)
      have hqty' : levelsQty b.bids.reverse = levelsQty b.bids := by
        unfold levelsQty
        rw [List.map_reverse, List.sum_reverse]
      have hleft : (sweepLevels b.next_id (fun _ => true) quantity
          b.bids.reverse b.order_lookup b.total_bid_volume).remaining = 0 := by
        rw [sweepLevels_leftover b.next_id b.bids.reverse quantity
          b.order_lookup b.total_bid_volume (le_of_lt hq) hcnt' hpos']
        rw [hqty', min_eq_left (le_trans (not_lt.mp hpre) hsum)]
        ring
      refine ⟨(sweepLevels b.next_id (fun _ => true) quantity b.bids.reverse
        b.order_lookup b.total_bid_volume).fills, ?_, Or.inl ?_⟩
      · simp only [OrderBook.execute_market_order]
        rw [if_neg hpre, if_neg (by rw [hleft]; norm_num)]
      · have := (sweepLevels_sums b.next_id (fun _ => true) b.bids.reverse
          quantity b.order_lookup b.total_bid_volume).1
        rw [hleft] at this
        simpa using this

/-- C4: every operation that returns an error leaves the book unchanged.
For `add_limit` (given the constructor-guaranteed positive tick size) and
`cancel` this is unconditional; `execute_market` additionally never errors
after its precheck as long as the aggregate does not overstate the
deliverable opposite-side volume (which the volume invariant guarantees,
and which is robust even to the stale-quantity slip).  In particular an
insufficient-liquidity rejection happens before the taker id is allocated,
and a cancel of an unknown id fails with NotFound and no mutation. -/
theorem C4_errors_leave_unchanged :
    (∀ (b : OrderBook) (side : OrderSide) (price quantity : Decimal)
      (e : BookErr), 0 < b.tick_size →
      (b.add_limit_order side price quantity).1 = .error e →
      (b.add_limit_order side price quantity).2 = b) ∧
    (∀ (b : OrderBook) (oid : OrderId) (e : BookErr),
      (b.cancel_limit_order oid).1 = .error e →
      (b.cancel_limit_order oid).2 = b) ∧
    (∀ (b : OrderBook) (oid : OrderId),
      lkGet b.order_lookup oid = none →
      b.cancel_limit_order oid = (.error .notFound, b)) ∧
    (∀ (b : OrderBook) (side : OrderSide) (quantity : Decimal),
      availableVol b side < quantity →
      b.execute_market_order side quantity = (.error .insufficientLiquidity, b)) ∧
    (∀ (b : OrderBook) (side : OrderSide) (quantity : Decimal) (e : BookErr),
      (∀ p ∈ oppositeLevels b side, p.2.order_count = p.2.orders.length) →
      (∀ p ∈ oppositeLevels b side, ∀ o ∈ p.2.orders, 0 ≤ o.quantity) →
      availableVol b side ≤ levelsQty (oppositeLevels b side) →
      (b.execute_market_order side quantity).1 = .error e →
      (b.execute_market_order side quantity).2 = b) := by
  refine ⟨?_, ?_, ?_, ?_, ?_⟩
  · intro b side price quantity e hts herr
    by_cases hp : price ≤ 0
    · rw [OrderBook.add_limit_order, if_pos hp]
    · by_cases hqv : quantity ≤ 0
      · rw [OrderBook.add_limit_order, if_neg hp, if_pos hqv]
      · exfalso
        cases side
        · simp only [OrderBook.add_limit_order, if_neg hp, if_neg hqv] at herr
          exact absurd herr
            (restRemaining_not_error _ .Buy price _ _ _ (not_le.mp hp) (by exact hts) e)
        · simp only [OrderBook.add_limit_order, if_neg hp, if_neg hqv] at herr
          exact absurd herr
            (restRemaining_not_error _ .Sell price _ _ _ (not_le.mp hp) (by exact hts) e)
  · intro b oid e herr
    rcases cancel_cases b oid with ⟨e', heq⟩ | hok
    · rw [heq]
    · rw [hok] at herr
      simp at herr
  · intro b oid hnone
    unfold OrderBook.cancel_limit_order
    rw [hnone]
  · intro b side quantity h
    cases side
    · dsimp only [availableVol] at h
      simp only [OrderBook.execute_market_order]
      rw [if_pos h]
    · dsimp only [availableVol] at h
      simp only [OrderBook.execute_market_order]
      rw [if_pos h]
  · intro b side quantity e hcnt hpos hsum herr
    by_cases hpre : availableVol b side < quantity
    · cases side
      · dsimp only [availableVol] at hpre
        simp only [OrderBook.execute_market_order]
        rw [if_pos hpre]
      · dsimp only [availableVol] at hpre
        simp only [OrderBook.execute_market_order]
        rw [if_pos hpre]
    · obtain ⟨fills, hok, _⟩ :=
        execute_market_characterize b side quantity hcnt hpos hsum hpre
      rw [hok] at herr
      simp at herr

/-- C4 witness. -/
theorem C4_errors_leave_unchanged_witness :
    ((emptyBook 1).add_limit_order .Buy (-1) 5).2 = emptyBook 1 ∧
    ((emptyBook 1).cancel_limit_order 0).2 = emptyBook 1 ∧
    (emptyBook 1).execute_market_order .Buy 5 =
      (.error .insufficientLiquidity, emptyBook 1) := by
  refine ⟨?_, ?_, ?_⟩
  · exact C4_errors_leave_unchanged.1 (emptyBook 1) .Buy (-1) 5 .invalidPrice
      (by norm_num [emptyBook]) (by norm_num [OrderBook.add_limit_order, emptyBook])
  · exact C4_errors_leave_unchanged.2.1 (emptyBook 1) 0 .notFound
      (by norm_num [OrderBook.cancel_limit_order, lkGet, emptyBook])
  · exact C4_errors_leave_unchanged.2.2.2.1 (emptyBook 1) .Buy 5
      (by norm_num [availableVol, emptyBook])

/-- C5: whenever the liquidity precheck admits a positive market order (the
opposite aggregate volume is at least the quantity), the matching loop
terminates having filled the full quantity — the call returns `Ok` with
fills summing to `quantity`, so the in-loop error branch is unreachable.
The hypotheses are consequences of the aggregate-volume invariant
(`availableVol ≤ levelsQty` follows from the invariant's equalities). -/
theorem C5_market_terminates (b : OrderBook) (side : OrderSide)
    (quantity : Decimal)
    (hcnt : ∀ p ∈ oppositeLevels b side, p.2.order_count = p.2.orders.length)
    (hpos : ∀ p ∈ oppositeLevels b side, ∀ o ∈ p.2.orders, 0 ≤ o.quantity)
    (hsum : availableVol b side ≤ levelsQty (oppositeLevels b side))
    (hq : 0 < quantity) (havail : quantity ≤ availableVol b side) :
    ∃ fills, (b.execute_market_order side quantity).1 = .ok fills ∧
      (fills.map Fill.quantity).sum = quantity := by
  obtain ⟨fills, hok, hs⟩ := execute_market_characterize b side quantity
    hcnt hpos hsum (not_lt.mpr havail)
  refine ⟨fills, hok, ?_⟩
  rcases hs with h | h
  · exact h
  · exact absurd h (not_le.mpr hq)

/-- A one-level ask book used as a concrete instance. -/
def oneAskBook : OrderBook :=
  ⟨1, [], [(⟨100, 1⟩, ⟨[⟨0, 10, .Limit, .Sell⟩], 10, 1⟩)], 1,
    [(0, .Sell, ⟨100, 1⟩)], 0, 10⟩

/-- C5 witness. -/
theorem C5_market_terminates_witness :
    ∃ fills, (oneAskBook.execute_market_order .Buy 10).1 = .ok fills ∧
      (fills.map Fill.quantity).sum = 10 :=
  C5_market_terminates oneAskBook .Buy 10
    (by norm_num [oppositeLevels, oneAskBook])
    (by
      intro p hp o ho
      simp only [oppositeLevels, oneAskBook, List.mem_singleton] at hp
      subst hp
      simp only [List.mem_singleton] at ho
      subst ho
      norm_num)
    (by norm_num [availableVol, oppositeLevels, levelsQty, oneAskBook])
    (by norm_num)
    (by norm_num [availableVol, oneAskBook])

/-! ## Lemmas for the add/cancel round trip -/

theorem tickLt_asymm (a b : Tick) (h : tickLt a b) : ¬ tickLt b a := by
  unfold tickLt at h ⊢
  rcases h with h | ⟨h1, h2⟩
  · rintro (h' | ⟨h1', h2'⟩)
    · exact absurd h' (asymm h)
    · rw [h1'] at h
      exact absurd h (lt_irrefl _)
  · rintro (h' | ⟨h1', h2'⟩)
    · rw [h1] at h'
      exact absurd h' (lt_irrefl _)
    · exact absurd h2' (asymm h2)

theorem getLevel_mem (s : Side) (t : Tick) (os : Orders)
    (h : getLevel s t = some os) : (t, os) ∈ s := by
  induction s with
  | nil => simp [getLevel] at h
  | cons p rest ih =>
    obtain ⟨k, os0⟩ := p
    rw [getLevel] at h
    by_cases hk : k = t
    · rw [if_pos hk] at h
      subst hk
      obtain rfl : os0 = os := Option.some.inj h
      exact List.mem_cons_self _ _
    · rw [if_neg hk] at h
      exact List.mem_cons_of_mem _ (ih h)

theorem getLevel_none_not_mem (s : Side) (t : Tick)
    (h : getLevel s t = none) : t ∉ s.map Prod.fst := by
  induction s with
  | nil => simp
  | cons p rest ih =>
    obtain ⟨k, os0⟩ := p
    rw [getLevel] at h
    by_cases hk : k = t
    · rw [if_pos hk] at h
      exact absurd h (by simp)
    · rw [if_neg hk] at h
      simp only [List.map_cons, List.mem_cons]
      rintro (hh | hh)
      · exact hk hh.symm
      · exact ih h hh

/-- Inserting an order at a fresh tick: the new level is found at that tick
and erasing it restores the side. -/
theorem insertOrder_fresh (s : Side) (t : Tick) (o : Order)
    (hmem : t ∉ s.map Prod.fst) :
    getLevel (insertOrder s t o) t = some (Orders.new.add_order o) ∧
    eraseLevel (insertOrder s t o) t = s := by
  induction s with
  | nil => simp [insertOrder, getLevel, eraseLevel]
  | cons p rest ih =>
    obtain ⟨k, os0⟩ := p
    simp only [List.map_cons, List.mem_cons] at hmem
    push_neg at hmem
    have hk : k ≠ t := fun h => hmem.1 h.symm
    rw [insertOrder]
    rw [if_neg hk]
    by_cases hlt : tickLt t k
    · rw [if_pos hlt]
      constructor
      · rw [getLevel, if_pos rfl]
      · rw [eraseLevel, if_pos rfl]
    · rw [if_neg hlt]
      obtain ⟨ih1, ih2⟩ := ih hmem.2
      constructor
      · rw [getLevel, if_neg hk]
        exact ih1
      · rw [eraseLevel, if_neg hk, ih2]

/-- Inserting an order at an existing tick of a sorted side: the queue grows
at the back and writing the old level back restores the side. -/
theorem insertOrder_existing (s : Side) (t : Tick) (o : Order) (os : Orders)
    (hsort : (s.map Prod.fst).Pairwise tickLt)
    (hget : getLevel s t = some os) :
    getLevel (insertOrder s t o) t = some (os.add_order o) ∧
    setLevel (insertOrder s t o) t os = s := by
  induction s with
  | nil => simp [getLevel] at hget
  | cons p rest ih =>
    obtain ⟨k, os0⟩ := p
    rw [List.map_cons, List.pairwise_cons] at hsort
    rw [getLevel] at hget
    by_cases hk : k = t
    · rw [if_pos hk] at hget
      obtain rfl : os0 = os := Option.some.inj hget
      rw [insertOrder, if_pos hk]
      constructor
      · rw [getLevel, if_pos hk]
      · rw [setLevel, if_pos hk, hk]
    · rw [if_neg hk] at hget
      have htm : t ∈ rest.map Prod.fst := by
        have := getLevel_mem rest t os hget
        exact List.mem_map_of_mem _ this
      have hkt : tickLt k t := hsort.1 t htm
      have hnlt : ¬ tickLt t k := tickLt_asymm k t hkt
      rw [insertOrder, if_neg hk, if_neg hnlt]
      obtain ⟨ih1, ih2⟩ := ih hsort.2 hget
      constructor
      · rw [getLevel, if_neg hk]
        exact ih1
      · rw [setLevel, if_neg hk, ih2]

theorem lkRemove_fresh (lk : Lookup) (k : OrderId)
    (h : ∀ pr ∈ lk, pr.1 ≠ k) : lkRemove lk k = lk := by
  induction lk with
  | nil => rfl
  | cons p rest ih =>
    rw [lkRemove, if_neg (h p (List.mem_cons_self _ _))]
    rw [ih (fun pr hpr => h pr (List.mem_cons_of_mem _ hpr))]

theorem removeById_append (q : List Order) (o : Order) (oid : OrderId)
    (ho : o.id = oid) (hq : ∀ x ∈ q, x.id ≠ oid) :
    Orders.removeById (q ++ [o]) oid = some (o, q) := by
  induction q with
  | nil => simp [Orders.removeById, ho]
  | cons x rest ih =>
    rw [List.cons_append, Orders.removeById,
      if_neg (hq x (List.mem_cons_self _ _)),
      ih (fun y hy => hq y (List.mem_cons_of_mem _ hy))]

theorem remove_order_eval (os : Orders) (o : Order) (rest : List Order)
    (oid : OrderId) (h : Orders.removeById os.orders oid = some (o, rest)) :
    os.remove_order oid =
      .ok (o, ⟨rest, os.total_volume - o.quantity, os.order_count - 1⟩) := by
  unfold Orders.remove_order
  rw [h]

/-- Evaluation of `cancel_limit_order` when every lookup succeeds. -/
theorem cancel_eval_buy (b : OrderBook) (oid : OrderId) (tk : Tick)
    (os : Orders) (o : Order) (os' : Orders)
    (hlg : lkGet b.order_lookup oid = some (.Buy, tk))
    (hgl : getLevel b.bids tk = some os)
    (hrm : os.remove_order oid = .ok (o, os')) :
    b.cancel_limit_order oid = (.ok (),
      { b with
        bids := if os'.order_count = 0 then eraseLevel b.bids tk
          else setLevel b.bids tk os'
        total_bid_volume := b.total_bid_volume - o.quantity
        order_lookup := lkRemove b.order_lookup oid }) := by
  unfold OrderBook.cancel_limit_order
  rw [hlg]
  dsimp only
  rw [hgl]
  dsimp only
  rw [hrm]

theorem cancel_eval_sell (b : OrderBook) (oid : OrderId) (tk : Tick)
    (os : Orders) (o : Order) (os' : Orders)
    (hlg : lkGet b.order_lookup oid = some (.Sell, tk))
    (hgl : getLevel b.asks tk = some os)
    (hrm : os.remove_order oid = .ok (o, os')) :
    b.cancel_limit_order oid = (.ok (),
      { b with
        asks := if os'.order_count = 0 then eraseLevel b.asks tk
          else setLevel b.asks tk os'
        total_ask_volume := b.total_ask_volume - o.quantity
        order_lookup := lkRemove b.order_lookup oid }) := by
  unfold OrderBook.cancel_limit_order
  rw [hlg]
  dsimp only
  rw [hgl]
  dsimp only
  rw [hrm]

/-- Characterization of a successful no-fill Buy `add_limit`. -/
theorem add_limit_no_fills_buy (b : OrderBook) (price quantity : Decimal)
    (oid : OrderId) (b1 : OrderBook)
    (hnea : ∀ p ∈ b.asks, p.2.orders ≠ [])
    (hadd : b.add_limit_order .Buy price quantity = (.ok (oid, []), b1)) :
    oid = b.next_id ∧ 0 < price ∧ 0 < quantity ∧
    ∃ tick, Tick.new price b.tick_size = .ok tick ∧
      b1 = { b with
        next_id := b.next_id + 1
        bids := insertOrder b.bids tick ⟨b.next_id, quantity, .Limit, .Buy⟩
        order_lookup := lkInsert b.order_lookup b.next_id (.Buy, tick)
        total_bid_volume := b.total_bid_volume + quantity } := by
  by_cases hp : price ≤ 0
  · rw [OrderBook.add_limit_order, if_pos hp] at hadd
    exact absurd (congrArg Prod.fst hadd) (by simp)
  by_cases hqv : quantity ≤ 0
  · rw [OrderBook.add_limit_order, if_neg hp, if_pos hqv] at hadd
    exact absurd (congrArg Prod.fst hadd) (by simp)
  simp only [OrderBook.add_limit_order, if_neg hp, if_neg hqv] at hadd
  have hfst := congrArg Prod.fst hadd
  dsimp only at hfst
  have hinv := restRemaining_ok_inv _ _ _ _ _ _ _ hfst
  have hoid : oid = b.next_id := congrArg Prod.fst hinv
  have hfl : ([] : List Fill) = (sweepLevels b.next_id
      (fun lvl => !decide (price < lvl)) quantity b.asks b.order_lookup
      b.total_ask_volume).fills := congrArg Prod.snd hinv
  have hsid := sweepLevels_no_fills b.next_id (fun lvl => !decide (price < lvl))
    b.asks quantity b.order_lookup b.total_ask_volume (not_le.mp hqv) hnea
    hfl.symm
  rw [hsid] at hadd
  dsimp only at hadd
  unfold OrderBook.restRemaining at hadd
  rw [if_neg hqv] at hadd
  cases htk : Tick.new price b.tick_size with
  | error e =>
    rw [htk] at hadd
    exact absurd (congrArg Prod.fst hadd) (by simp)
  | ok tick =>
    rw [htk, Order.new, if_neg hqv] at hadd
    dsimp only at hadd
    refine ⟨hoid, not_le.mp hp, not_le.mp hqv, tick, rfl, ?_⟩
    exact (congrArg Prod.snd hadd).symm

/-- Characterization of a successful no-fill Sell `add_limit`. -/
theorem add_limit_no_fills_sell (b : OrderBook) (price quantity : Decimal)
    (oid : OrderId) (b1 : OrderBook)
    (hneb : ∀ p ∈ b.bids, p.2.orders ≠ [])
    (hadd : b.add_limit_order .Sell price quantity = (.ok (oid, []), b1)) :
    oid = b.next_id ∧ 0 < price ∧ 0 < quantity ∧
    ∃ tick, Tick.new price b.tick_size = .ok tick ∧
      b1 = { b with
        next_id := b.next_id + 1
        asks := insertOrder b.asks tick ⟨b.next_id, quantity, .Limit, .Sell⟩
        order_lookup := lkInsert b.order_lookup b.next_id (.Sell, tick)
        total_ask_volume := b.total_ask_volume + quantity } := by
  by_cases hp : price ≤ 0
  · rw [OrderBook.add_limit_order, if_pos hp] at hadd
    exact absurd (congrArg Prod.fst hadd) (by simp)
  by_cases hqv : quantity ≤ 0
  · rw [OrderBook.add_limit_order, if_neg hp, if_pos hqv] at hadd
    exact absurd (congrArg Prod.fst hadd) (by simp)
  simp only [OrderBook.add_limit_order, if_neg hp, if_neg hqv] at hadd
  have hfst := congrArg Prod.fst hadd
  dsimp only at hfst
  have hinv := restRemaining_ok_inv _ _ _ _ _ _ _ hfst
  have hoid : oid = b.next_id := congrArg Prod.fst hinv
  have hfl : ([] : List Fill) = (sweepLevels b.next_id
      (fun lvl => !decide (price > lvl)) quantity b.bids.reverse b.order_lookup
      b.total_bid_volume).fills := congrArg Prod.snd hinv
  have hneb' : ∀ p ∈ b.bids.reverse, p.2.orders ≠ [] :=
    fun p hp' => hneb p (List.mem_reverse.mp hp')
  have hsid := sweepLevels_no_fills b.next_id (fun lvl => !decide (price > lvl))
    b.bids.reverse quantity b.order_lookup b.total_bid_volume (not_le.mp hqv)
    hneb' hfl.symm
  rw [hsid] at hadd
  dsimp only at hadd
  rw [List.reverse_reverse] at hadd
  unfold OrderBook.restRemaining at hadd
  rw [if_neg hqv] at hadd
  cases htk : Tick.new price b.tick_size with
  | error e =>
    rw [htk] at hadd
    exact absurd (congrArg Prod.fst hadd) (by simp)
  | ok tick =>
    rw [htk, Order.new, if_neg hqv] at hadd
    dsimp only at hadd
    refine ⟨hoid, not_le.mp hp, not_le.mp hqv, tick, rfl, ?_⟩
    exact (congrArg Prod.snd hadd).symm

/-- Cancelling a just-rested Buy order restores bids, aggregate volume and
lookup (only `next_id` keeps its advanced value). -/
theorem cancel_of_inserted_buy (b : OrderBook) (tick : Tick) (quantity : Decimal)
    (hsortb : (b.bids.map Prod.fst).Pairwise tickLt)
    (hcntb : ∀ p ∈ b.bids, p.2.order_count = p.2.orders.length)
    (hneb : ∀ p ∈ b.bids, p.2.orders ≠ [])
    (hflk : ∀ pr ∈ b.order_lookup, pr.1 < b.next_id)
    (hfb : ∀ p ∈ b.bids, ∀ o ∈ p.2.orders, o.id < b.next_id) :
    (OrderBook.cancel_limit_order
      ⟨b.tick_size, insertOrder b.bids tick ⟨b.next_id, quantity, .Limit, .Buy⟩,
        b.asks, b.next_id + 1,
        lkInsert b.order_lookup b.next_id (.Buy, tick),
        b.total_bid_volume + quantity, b.total_ask_volume⟩ b.next_id) =
      (.ok (), { b with next_id := b.next_id + 1 }) := by
  have hlg : lkGet (lkInsert b.order_lookup b.next_id (.Buy, tick)) b.next_id =
      some (.Buy, tick) := by
    rw [lkInsert, lkGet, if_pos rfl]
  have hlkrm2 : lkRemove (lkInsert b.order_lookup b.next_id (.Buy, tick))
      b.next_id = b.order_lookup := by
    rw [lkInsert, lkRemove, if_pos rfl]
    exact lkRemove_fresh _ _ (fun pr hpr => Nat.ne_of_lt (hflk pr hpr))
  cases hgb : getLevel b.bids tick with
  | none =>
    obtain ⟨hins1, hins2⟩ := insertOrder_fresh b.bids tick
      ⟨b.next_id, quantity, .Limit, .Buy⟩ (getLevel_none_not_mem _ _ hgb)
    have hrb : Orders.removeById
        ((Orders.new.add_order ⟨b.next_id, quantity, .Limit, .Buy⟩).orders)
        b.next_id = some (⟨b.next_id, quantity, .Limit, .Buy⟩, []) := by
      show Orders.removeById ([] ++ [⟨b.next_id, quantity, .Limit, .Buy⟩])
        b.next_id = some (⟨b.next_id, quantity, .Limit, .Buy⟩, [])
      exact removeById_append [] _ _ rfl (by simp)
    have hrm := remove_order_eval _ _ _ _ hrb
    have hcan := cancel_eval_buy
      ⟨b.tick_size, insertOrder b.bids tick ⟨b.next_id, quantity, .Limit, .Buy⟩,
        b.asks, b.next_id + 1,
        lkInsert b.order_lookup b.next_id (.Buy, tick),
        b.total_bid_volume + quantity, b.total_ask_volume⟩
      b.next_id tick _ _ _ (by exact hlg) (by exact hins1) hrm
    rw [hcan]
    dsimp only
    have hifc : (Orders.new.add_order
        (⟨b.next_id, quantity, .Limit, .Buy⟩ : Order)).order_count - 1 = 0 := rfl
    rw [hifc, if_pos rfl, hins2, hlkrm2]
    simp only [Prod.mk.injEq, OrderBook.mk.injEq, true_and, and_true]
    ring
  | some os =>
    have hmempair : (tick, os) ∈ b.bids := getLevel_mem _ _ _ hgb
    obtain ⟨hins1, hins2⟩ := insertOrder_existing b.bids tick
      ⟨b.next_id, quantity, .Limit, .Buy⟩ os hsortb hgb
    have hfr : ∀ x ∈ os.orders, x.id ≠ b.next_id :=
      fun x hx => Nat.ne_of_lt (hfb (tick, os) hmempair x hx)
    have hrb : Orders.removeById
        ((os.add_order ⟨b.next_id, quantity, .Limit, .Buy⟩).orders) b.next_id =
        some (⟨b.next_id, quantity, .Limit, .Buy⟩, os.orders) := by
      show Orders.removeById (os.orders ++ [⟨b.next_id, quantity, .Limit, .Buy⟩])
        b.next_id = some (⟨b.next_id, quantity, .Limit, .Buy⟩, os.orders)
      exact removeById_append os.orders _ _ rfl hfr
    have hrm := remove_order_eval _ _ _ _ hrb
    have hos' : (⟨os.orders,
        (os.add_order ⟨b.next_id, quantity, .Limit, .Buy⟩).total_volume -
          (⟨b.next_id, quantity, .Limit, .Buy⟩ : Order).quantity,
        (os.add_order ⟨b.next_id, quantity, .Limit, .Buy⟩).order_count - 1⟩ :
        Orders) = os := by
      show (⟨os.orders, os.total_volume + quantity - quantity,
        os.order_count + 1 - 1⟩ : Orders) = os
      have h1 : os.total_volume + quantity - quantity = os.total_volume := by
        ring
      rw [h1, Nat.add_sub_cancel]
    rw [hos'] at hrm
    have hcan := cancel_eval_buy
      ⟨b.tick_size, insertOrder b.bids tick ⟨b.next_id, quantity, .Limit, .Buy⟩,
        b.asks, b.next_id + 1,
        lkInsert b.order_lookup b.next_id (.Buy, tick),
        b.total_bid_volume + quantity, b.total_ask_volume⟩
      b.next_id tick _ _ _ (by exact hlg) (by exact hins1) hrm
    rw [hcan]
    dsimp only
    have hcz : ¬ os.order_count = 0 := by
      rw [hcntb (tick, os) hmempair]
      intro hlen
      exact hneb (tick, os) hmempair (List.length_eq_zero.mp hlen)
    rw [if_neg hcz, hins2, hlkrm2]
    simp only [Prod.mk.injEq, OrderBook.mk.injEq, true_and, and_true]
    ring

/-- Cancelling a just-rested Sell order restores asks, aggregate volume and
lookup (only `next_id` keeps its advanced value). -/
theorem cancel_of_inserted_sell (b : OrderBook) (tick : Tick) (quantity : Decimal)
    (hsorta : (b.asks.map Prod.fst).Pairwise tickLt)
    (hcnta : ∀ p ∈ b.asks, p.2.order_count = p.2.orders.length)
    (hnea : ∀ p ∈ b.asks, p.2.orders ≠ [])
    (hflk : ∀ pr ∈ b.order_lookup, pr.1 < b.next_id)
    (hfa : ∀ p ∈ b.asks, ∀ o ∈ p.2.orders, o.id < b.next_id) :
    (OrderBook.cancel_limit_order
      ⟨b.tick_size, b.bids,
        insertOrder b.asks tick ⟨b.next_id, quantity, .Limit, .Sell⟩,
        b.next_id + 1,
        lkInsert b.order_lookup b.next_id (.Sell, tick),
        b.total_bid_volume, b.total_ask_volume + quantity⟩ b.next_id) =
      (.ok (), { b with next_id := b.next_id + 1 }) := by
  have hlg : lkGet (lkInsert b.order_lookup b.next_id (.Sell, tick)) b.next_id =
      some (.Sell, tick) := by
    rw [lkInsert, lkGet, if_pos rfl]
  have hlkrm2 : lkRemove (lkInsert b.order_lookup b.next_id (.Sell, tick))
      b.next_id = b.order_lookup := by
    rw [lkInsert, lkRemove, if_pos rfl]
    exact lkRemove_fresh _ _ (fun pr hpr => Nat.ne_of_lt (hflk pr hpr))
  cases hgb : getLevel b.asks tick with
  | none =>
    obtain ⟨hins1, hins2⟩ := insertOrder_fresh b.asks tick
      ⟨b.next_id, quantity, .Limit, .Sell⟩ (getLevel_none_not_mem _ _ hgb)
    have hrb : Orders.removeById
        ((Orders.new.add_order ⟨b.next_id, quantity, .Limit, .Sell⟩).orders)
        b.next_id = some (⟨b.next_id, quantity, .Limit, .Sell⟩, []) := by
      show Orders.removeById ([] ++ [⟨b.next_id, quantity, .Limit, .Sell⟩])
        b.next_id = some (⟨b.next_id, quantity, .Limit, .Sell⟩, [])
      exact removeById_append [] _ _ rfl (by simp)
    have hrm := remove_order_eval _ _ _ _ hrb
    have hcan := cancel_eval_sell
      ⟨b.tick_size, b.bids,
        insertOrder b.asks tick ⟨b.next_id, quantity, .Limit, .Sell⟩,
        b.next_id + 1,
        lkInsert b.order_lookup b.next_id (.Sell, tick),
        b.total_bid_volume, b.total_ask_volume + quantity⟩
      b.next_id tick _ _ _ (by exact hlg) (by exact hins1) hrm
    rw [hcan]
    dsimp only
    have hifc : (Orders.new.add_order
        (⟨b.next_id, quantity, .Limit, .Sell⟩ : Order)).order_count - 1 = 0 := rfl
    rw [hifc, if_pos rfl, hins2, hlkrm2]
    simp only [Prod.mk.injEq, OrderBook.mk.injEq, true_and, and_true]
    ring
  | some os =>
    have hmempair : (tick, os) ∈ b.asks := getLevel_mem _ _ _ hgb
    obtain ⟨hins1, hins2⟩ := insertOrder_existing b.asks tick
      ⟨b.next_id, quantity, .Limit, .Sell⟩ os hsorta hgb
    have hfr : ∀ x ∈ os.orders, x.id ≠ b.next_id :=
      fun x hx => Nat.ne_of_lt (hfa (tick, os) hmempair x hx)
    have hrb : Orders.removeById
        ((os.add_order ⟨b.next_id, quantity, .Limit, .Sell⟩).orders) b.next_id =
        some (⟨b.next_id, quantity, .Limit, .Sell⟩, os.orders) := by
      show Orders.removeById (os.orders ++ [⟨b.next_id, quantity, .Limit, .Sell⟩])
        b.next_id = some (⟨b.next_id, quantity, .Limit, .Sell⟩, os.orders)
      exact removeById_append os.orders _ _ rfl hfr
    have hrm := remove_order_eval _ _ _ _ hrb
    have hos' : (⟨os.orders,
        (os.add_order ⟨b.next_id, quantity, .Limit, .Sell⟩).total_volume -
          (⟨b.next_id, quantity, .Limit, .Sell⟩ : Order).quantity,
        (os.add_order ⟨b.next_id, quantity, .Limit, .Sell⟩).order_count - 1⟩ :
        Orders) = os := by
      show (⟨os.orders, os.total_volume + quantity - quantity,
        os.order_count + 1 - 1⟩ : Orders) = os
      have h1 : os.total_volume + quantity - quantity = os.total_volume := by
        ring
      rw [h1, Nat.add_sub_cancel]
    rw [hos'] at hrm
    have hcan := cancel_eval_sell
      ⟨b.tick_size, b.bids,
        insertOrder b.asks tick ⟨b.next_id, quantity, .Limit, .Sell⟩,
        b.next_id + 1,
        lkInsert b.order_lookup b.next_id (.Sell, tick),
        b.total_bid_volume, b.total_ask_volume + quantity⟩
      b.next_id tick _ _ _ (by exact hlg) (by exact hins1) hrm
    rw [hcan]
    dsimp only
    have hcz : ¬ os.order_count = 0 := by
      rw [hcnta (tick, os) hmempair]
      intro hlen
      exact hnea (tick, os) hmempair (List.length_eq_zero.mp hlen)
    rw [if_neg hcz, hins2, hlkrm2]
    simp only [Prod.mk.injEq, OrderBook.mk.injEq, true_and, and_true]
    ring

/-- C6: on a well-shaped book (sorted distinct levels, consistent counts,
no empty levels, all resting and indexed ids below `next_id` — all
maintained by the implementation), an `add_limit` that succeeds with no
fills followed by `cancel` of the returned id succeeds and restores both
aggregate volumes, the order-index contents (hence its size), and both
sides' level maps exactly; only `next_id` keeps its advanced value. -/
theorem C6_add_cancel_roundtrip (b : OrderBook) (side : OrderSide)
    (price quantity : Decimal) (oid : OrderId) (b1 : OrderBook)
    (hsortb : (b.bids.map Prod.fst).Pairwise tickLt)
    (hsorta : (b.asks.map Prod.fst).Pairwise tickLt)
    (hcntb : ∀ p ∈ b.bids, p.2.order_count = p.2.orders.length)
    (hcnta : ∀ p ∈ b.asks, p.2.order_count = p.2.orders.length)
    (hneb : ∀ p ∈ b.bids, p.2.orders ≠ [])
    (hnea : ∀ p ∈ b.asks, p.2.orders ≠ [])
    (hflk : ∀ pr ∈ b.order_lookup, pr.1 < b.next_id)
    (hfb : ∀ p ∈ b.bids, ∀ o ∈ p.2.orders, o.id < b.next_id)
    (hfa : ∀ p ∈ b.asks, ∀ o ∈ p.2.orders, o.id < b.next_id)
    (hadd : b.add_limit_order side price quantity = (.ok (oid, []), b1)) :
    (b1.cancel_limit_order oid).1 = .ok () ∧
    (b1.cancel_limit_order oid).2.bids = b.bids ∧
    (b1.cancel_limit_order oid).2.asks = b.asks ∧
    (b1.cancel_limit_order oid).2.total_bid_volume = b.total_bid_volume ∧
    (b1.cancel_limit_order oid).2.total_ask_volume = b.total_ask_volume ∧
    (b1.cancel_limit_order oid).2.order_lookup = b.order_lookup ∧
    (b1.cancel_limit_order oid).2.order_lookup.length =
      b.order_lookup.length := by
  cases side
  · obtain ⟨hoid, hp, hq, tick, htk, hb1⟩ :=
      add_limit_no_fills_buy b price quantity oid b1 hnea hadd
    subst hoid
    subst hb1
    have hrt := cancel_of_inserted_buy b tick quantity hsortb hcntb hneb hflk hfb
    rw [hrt]
    exact ⟨rfl, rfl, rfl, rfl, rfl, rfl, rfl⟩
  · obtain ⟨hoid, hp, hq, tick, htk, hb1⟩ :=
      add_limit_no_fills_sell b price quantity oid b1 hneb hadd
    subst hoid
    subst hb1
    have hrt := cancel_of_inserted_sell b tick quantity hsorta hcnta hnea hflk hfa
    rw [hrt]
    exact ⟨rfl, rfl, rfl, rfl, rfl, rfl, rfl⟩

/-- C6 witness: a fresh book, one resting bid, cancelled again. -/
theorem C6_add_cancel_roundtrip_witness :
    (((emptyBook 1).add_limit_order .Buy 100 10).2.cancel_limit_order 0).1 =
      .ok () ∧
    (((emptyBook 1).add_limit_order .Buy 100 10).2.cancel_limit_order
      0).2.total_bid_volume = (emptyBook 1).total_bid_volume := by
  have hadd : (emptyBook 1).add_limit_order .Buy 100 10 =
      (.ok (0, []), ((emptyBook 1).add_limit_order .Buy 100 10).2) := by
    norm_num [OrderBook.add_limit_order, emptyBook, sweepLevels,
      OrderBook.restRemaining, Tick.new, Tick.normalize, roundBank, Order.new,
      insertOrder, lkInsert, lkRemove, Orders.new, Orders.add_order,
      Int.floor_eq_iff, Prod.ext_iff]
  have h := C6_add_cancel_roundtrip (emptyBook 1) .Buy 100 10 0
    (((emptyBook 1).add_limit_order .Buy 100 10).2)
    (by simp [emptyBook]) (by simp [emptyBook]) (by simp [emptyBook])
    (by simp [emptyBook]) (by simp [emptyBook]) (by simp [emptyBook])
    (by simp [emptyBook]) (by simp [emptyBook]) (by simp [emptyBook]) hadd
  exact ⟨h.1, h.2.2.2.1⟩

/-! ## The no-cross invariant (C1) -/

theorem tickLt_trans (a b c : Tick) (h1 : tickLt a b) (h2 : tickLt b c) :
    tickLt a c := by
  unfold tickLt at *
  rcases h1 with h1 | ⟨h1, h1'⟩ <;> rcases h2 with h2 | ⟨h2, h2'⟩
  · exact Or.inl (lt_trans h1 h2)
  · exact Or.inl (h2 ▸ h1)
  · exact Or.inl (h1 ▸ h2)
  · exact Or.inr ⟨h1.trans h2, lt_trans h1' h2'⟩

theorem tickLt_total (a b : Tick) (h : a ≠ b) : tickLt a b ∨ tickLt b a := by
  unfold tickLt
  rcases lt_trichotomy a.level b.level with hl | hl | hl
  · exact Or.inl (Or.inl hl)
  · rcases lt_trichotomy a.tick_size b.tick_size with ht | ht | ht
    · exact Or.inl (Or.inr ⟨hl, ht⟩)
    · exact absurd (by cases a; cases b; dsimp only at hl ht; rw [hl, ht]) h
    · exact Or.inr (Or.inr ⟨hl.symm, ht⟩)
  · exact Or.inr (Or.inl hl)

theorem tickLt_level_le (a b : Tick) (h : tickLt a b) : a.level ≤ b.level := by
  rcases h with h | ⟨h, _⟩
  · exact le_of_lt h
  · exact le_of_eq h

theorem floor_le_roundBank (x : ℚ) : ⌊x⌋ ≤ roundBank x := by
  unfold roundBank
  dsimp only
  split_ifs <;> omega

theorem roundBank_le_ceil (x : ℚ) : roundBank x ≤ ⌈x⌉ := by
  have hfc : ⌊x⌋ ≤ ⌈x⌉ := Int.floor_le_ceil x
  unfold roundBank
  dsimp only
  split_ifs with h1 h2 h3
  · exact hfc
  · -- the fractional part is positive, so the ceiling exceeds the floor
    have hx : (⌊x⌋ : ℚ) < x := by linarith
    have : ⌊x⌋ < ⌈x⌉ := by
      by_contra hcon
      push_neg at hcon
      have : x = (⌊x⌋ : ℚ) :=
        le_antisymm (by exact_mod_cast Int.ceil_le.mp hcon) (Int.floor_le x)
      linarith
    omega
  · exact hfc
  · have hx : (⌊x⌋ : ℚ) < x := by
      have h2' : ¬ x - ⌊x⌋ < 1/2 := h1
      push_neg at h2'
      linarith
    have : ⌊x⌋ < ⌈x⌉ := by
      by_contra hcon
      push_neg at hcon
      have : x = (⌊x⌋ : ℚ) := le_antisymm (by exact_mod_cast Int.ceil_le.mp hcon) (Int.floor_le x)
      linarith
    omega

/-- Resting-price bound: normalization cannot jump past a grid point above
the raw price. -/
theorem normalize_le (p ts : Decimal) (k : ℤ) (hts : 0 < ts)
    (h : p < (k : ℚ) * ts) : Tick.normalize p ts ≤ (k : ℚ) * ts := by
  unfold Tick.normalize
  have hdiv : p / ts < (k : ℚ) := (div_lt_iff hts).mpr h
  have hceil : roundBank (p / ts) ≤ k :=
    le_trans (roundBank_le_ceil _) (Int.ceil_le.mpr (le_of_lt hdiv))
  have : (roundBank (p / ts) : ℚ) ≤ (k : ℚ) := by exact_mod_cast hceil
  exact mul_le_mul_of_nonneg_right this (le_of_lt hts)

/-- Resting-price bound: normalization cannot jump past a grid point below
the raw price. -/
theorem normalize_ge (p ts : Decimal) (k : ℤ) (hts : 0 < ts)
    (h : (k : ℚ) * ts < p) : (k : ℚ) * ts ≤ Tick.normalize p ts := by
  unfold Tick.normalize
  have hdiv : (k : ℚ) < p / ts := (lt_div_iff hts).mpr h
  have hfl : k ≤ ⌊p / ts⌋ := Int.le_floor.mpr (le_of_lt hdiv)
  have hrb : k ≤ roundBank (p / ts) := le_trans hfl (floor_le_roundBank _)
  have : (k : ℚ) ≤ (roundBank (p / ts) : ℚ) := by exact_mod_cast hrb
  exact mul_le_mul_of_nonneg_right this (le_of_lt hts)

theorem insertOrder_keys (s : Side) (t : Tick) (o : Order) :
    ∀ x ∈ (insertOrder s t o).map Prod.fst, x ∈ s.map Prod.fst ∨ x = t := by
  induction s with
  | nil =>
    intro x hx
    simp only [insertOrder, List.map_cons, List.map_nil, List.mem_singleton] at hx
    exact Or.inr hx
  | cons p rest ih =>
    obtain ⟨k, os⟩ := p
    intro x hx
    rw [insertOrder] at hx
    by_cases hk : k = t
    · rw [if_pos hk] at hx
      simp only [List.map_cons, List.mem_cons] at hx
      rcases hx with hx | hx
      · exact Or.inl (by simp [hx])
      · exact Or.inl (by simp [hx])
    · rw [if_neg hk] at hx
      by_cases hlt : tickLt t k
      · rw [if_pos hlt] at hx
        simp only [List.map_cons, List.mem_cons] at hx
        rcases hx with hx | hx | hx
        · exact Or.inr hx
        · exact Or.inl (by simp [hx])
        · exact Or.inl (by
            simp only [List.map_cons, List.mem_cons]
            exact Or.inr hx)
      · rw [if_neg hlt] at hx
        simp only [List.map_cons, List.mem_cons] at hx
        rcases hx with hx | hx
        · exact Or.inl (by simp [hx])
        · rcases ih x hx with hh | hh
          · exact Or.inl (by
              simp only [List.map_cons, List.mem_cons]
              exact Or.inr hh)
          · exact Or.inr hh

theorem insertOrder_sorted (s : Side) (t : Tick) (o : Order)
    (hsort : (s.map Prod.fst).Pairwise tickLt) :
    ((insertOrder s t o).map Prod.fst).Pairwise tickLt := by
  induction s with
  | nil => simp [insertOrder]
  | cons p rest ih =>
    obtain ⟨k, os⟩ := p
    rw [List.map_cons, List.pairwise_cons] at hsort
    rw [insertOrder]
    by_cases hk : k = t
    · rw [if_pos hk]
      rw [List.map_cons, List.pairwise_cons]
      exact ⟨hsort.1, hsort.2⟩
    · rw [if_neg hk]
      by_cases hlt : tickLt t k
      · rw [if_pos hlt]
        rw [List.map_cons, List.pairwise_cons]
        refine ⟨?_, ?_⟩
        · intro x hx
          simp only [List.map_cons, List.mem_cons] at hx
          rcases hx with hx | hx
          · exact hx ▸ hlt
          · exact tickLt_trans _ _ _ hlt (hsort.1 x hx)
        · rw [List.map_cons, List.pairwise_cons]
          exact ⟨hsort.1, hsort.2⟩
      · rw [if_neg hlt]
        have hkt : tickLt k t := by
          rcases tickLt_total k t (fun h => hk h) with h | h
          · exact h
          · exact absurd h hlt
        rw [List.map_cons, List.pairwise_cons]
        refine ⟨?_, ih hsort.2⟩
        intro x hx
        rcases insertOrder_keys rest t o x hx with hh | hh
        · exact hsort.1 x hh
        · exact hh ▸ hkt

theorem insertOrder_cnt (s : Side) (t : Tick) (o : Order)
    (hcnt : ∀ p ∈ s, p.2.order_count = p.2.orders.length) :
    ∀ p ∈ insertOrder s t o, p.2.order_count = p.2.orders.length := by
  induction s with
  | nil =>
    intro p hp
    simp only [insertOrder, List.mem_singleton] at hp
    subst hp
    simp [Orders.new, Orders.add_order]
  | cons q rest ih =>
    obtain ⟨k, os⟩ := q
    intro p hp
    rw [insertOrder] at hp
    by_cases hk : k = t
    · rw [if_pos hk] at hp
      rcases List.mem_cons.mp hp with hp | hp
      · subst hp
        have := hcnt (k, os) (List.mem_cons_self _ _)
        simp only [Orders.add_order, List.length_append]
        simp only at this
        simp [this]
      · exact hcnt p (List.mem_cons_of_mem _ hp)
    · rw [if_neg hk] at hp
      by_cases hlt : tickLt t k
      · rw [if_pos hlt] at hp
        rcases List.mem_cons.mp hp with hp | hp
        · subst hp
          simp [Orders.new, Orders.add_order]
        · exact hcnt p hp
      · rw [if_neg hlt] at hp
        rcases List.mem_cons.mp hp with hp | hp
        · subst hp
          exact hcnt _ (List.mem_cons_self _ _)
        · exact ih (fun q hq => hcnt q (List.mem_cons_of_mem _ hq)) p hp

theorem eraseLevel_sublist (s : Side) (t : Tick) :
    List.Sublist (eraseLevel s t) s := by
  induction s with
  | nil => exact List.Sublist.refl _
  | cons p rest ih =>
    obtain ⟨k, os⟩ := p
    rw [eraseLevel]
    by_cases hk : k = t
    · rw [if_pos hk]
      exact List.sublist_cons_self _ _
    · rw [if_neg hk]
      exact List.Sublist.cons₂ _ ih

theorem setLevel_keys (s : Side) (t : Tick) (os' : Orders) :
    (setLevel s t os').map Prod.fst = s.map Prod.fst := by
  induction s with
  | nil => rfl
  | cons p rest ih =>
    obtain ⟨k, os⟩ := p
    rw [setLevel]
    by_cases hk : k = t
    · rw [if_pos hk]
      simp [hk]
    · rw [if_neg hk]
      simp [ih]

theorem setLevel_mem (s : Side) (t : Tick) (os' : Orders) :
    ∀ p ∈ setLevel s t os', p ∈ s ∨ p = (t, os') := by
  induction s with
  | nil => intro p hp; exact absurd hp (List.not_mem_nil p)
  | cons q rest ih =>
    obtain ⟨k, os⟩ := q
    intro p hp
    rw [setLevel] at hp
    by_cases hk : k = t
    · rw [if_pos hk] at hp
      rcases List.mem_cons.mp hp with hp | hp
      · exact Or.inr hp
      · exact Or.inl (List.mem_cons_of_mem _ hp)
    · rw [if_neg hk] at hp
      rcases List.mem_cons.mp hp with hp | hp
      · exact Or.inl (hp ▸ List.mem_cons_self _ _)
      · rcases ih p hp with hh | hh
        · exact Or.inl (List.mem_cons_of_mem _ hh)
        · exact Or.inr hh

theorem removeById_length (l : List Order) (oid : OrderId) (o : Order)
    (rest : List Order) (h : Orders.removeById l oid = some (o, rest)) :
    l.length = rest.length + 1 := by
  induction l generalizing rest with
  | nil => simp [Orders.removeById] at h
  | cons x xs ih =>
    rw [Orders.removeById] at h
    by_cases hx : x.id = oid
    · rw [if_pos hx] at h
      obtain ⟨rfl, rfl⟩ := Prod.mk.injEq .. ▸ Option.some.inj h
      simp
    · rw [if_neg hx] at h
      cases hr : Orders.removeById xs oid with
      | none => rw [hr] at h; simp at h
      | some pr =>
        obtain ⟨o2, rest2⟩ := pr
        rw [hr] at h
        obtain ⟨h1, h2⟩ := Prod.mk.injEq .. ▸ Option.some.inj h
        subst h1
        rw [← h2]
        simp [ih rest2 hr]

/-- The shape invariant maintained by every book operation: positive tick
size, strictly sorted sides, all keys on the book's grid with the book's
tick size, consistent counts, and the no-touch-free no-cross property
`bid level ≤ ask level` for every pair of resting levels. -/
structure BookInv (b : OrderBook) : Prop where
  ts_pos : 0 < b.tick_size
  bids_sorted : (b.bids.map Prod.fst).Pairwise tickLt
  asks_sorted : (b.asks.map Prod.fst).Pairwise tickLt
  bids_grid : ∀ t ∈ b.bids.map Prod.fst,
    t.tick_size = b.tick_size ∧ ∃ k : ℤ, t.level = (k : ℚ) * b.tick_size
  asks_grid : ∀ t ∈ b.asks.map Prod.fst,
    t.tick_size = b.tick_size ∧ ∃ k : ℤ, t.level = (k : ℚ) * b.tick_size
  bids_cnt : ∀ p ∈ b.bids, p.2.order_count = p.2.orders.length
  asks_cnt : ∀ p ∈ b.asks, p.2.order_count = p.2.orders.length
  no_cross : ∀ tb ∈ b.bids.map Prod.fst, ∀ ta ∈ b.asks.map Prod.fst,
    tb.level ≤ ta.level

/-- Resting a Buy residual preserves the invariant, provided the
(normalized) resting level sits at or below every surviving ask level. -/
theorem restRemaining_preserves_buy (bb : OrderBook) (p q' : Decimal)
    (oid : OrderId) (fills : List Fill) (h : BookInv bb)
    (hbound : 0 < q' → ∀ ta ∈ bb.asks.map Prod.fst,
      Tick.normalize p bb.tick_size ≤ ta.level) :
    BookInv (bb.restRemaining .Buy p oid q' fills).2 := by
  unfold OrderBook.restRemaining
  by_cases hr : q' ≤ 0
  · rw [if_pos hr]
    exact h
  · rw [if_neg hr]
    by_cases hp : p ≤ 0
    · rw [Tick.new, if_pos hp]
      exact h
    · rw [Tick.new, if_neg hp, if_neg (not_le.mpr h.ts_pos), Order.new,
        if_neg hr]
      dsimp only
      refine ⟨h.ts_pos, ?_, h.asks_sorted, ?_, h.asks_grid, ?_, h.asks_cnt, ?_⟩
      · exact insertOrder_sorted _ _ _ h.bids_sorted
      · intro t ht
        rcases insertOrder_keys _ _ _ t ht with hh | hh
        · exact h.bids_grid t hh
        · subst hh
          exact ⟨rfl, roundBank (p / bb.tick_size), rfl⟩
      · exact insertOrder_cnt _ _ _ h.bids_cnt
      · intro tb htb ta hta
        rcases insertOrder_keys _ _ _ tb htb with hh | hh
        · exact h.no_cross tb hh ta hta
        · subst hh
          exact hbound (not_le.mp hr) ta hta

/-- Resting a Sell residual preserves the invariant, provided the
(normalized) resting level sits at or above every surviving bid level. -/
theorem restRemaining_preserves_sell (bb : OrderBook) (p q' : Decimal)
    (oid : OrderId) (fills : List Fill) (h : BookInv bb)
    (hbound : 0 < q' → ∀ tb ∈ bb.bids.map Prod.fst,
      tb.level ≤ Tick.normalize p bb.tick_size) :
    BookInv (bb.restRemaining .Sell p oid q' fills).2 := by
  unfold OrderBook.restRemaining
  by_cases hr : q' ≤ 0
  · rw [if_pos hr]
    exact h
  · rw [if_neg hr]
    by_cases hp : p ≤ 0
    · rw [Tick.new, if_pos hp]
      exact h
    · rw [Tick.new, if_neg hp, if_neg (not_le.mpr h.ts_pos), Order.new,
        if_neg hr]
      dsimp only
      refine ⟨h.ts_pos, h.bids_sorted, ?_, h.bids_grid, ?_, h.bids_cnt, ?_, ?_⟩
      · exact insertOrder_sorted _ _ _ h.asks_sorted
      · intro t ht
        rcases insertOrder_keys _ _ _ t ht with hh | hh
        · exact h.asks_grid t hh
        · subst hh
          exact ⟨rfl, roundBank (p / bb.tick_size), rfl⟩
      · exact insertOrder_cnt _ _ _ h.asks_cnt
      · intro tb htb ta hta
        rcases insertOrder_keys _ _ _ ta hta with hh | hh
        · exact h.no_cross tb htb ta hh
        · subst hh
          exact hbound (not_le.mp hr) tb htb

/-- `add_limit_order` preserves the shape invariant. -/
theorem add_limit_preserves_inv (b : OrderBook) (side : OrderSide)
    (p q : Decimal) (h : BookInv b) :
    BookInv (b.add_limit_order side p q).2 := by
  cases side
  · by_cases hp : p ≤ 0
    · rw [OrderBook.add_limit_order, if_pos hp]
      exact h
    by_cases hq : q ≤ 0
    · rw [OrderBook.add_limit_order, if_neg hp, if_pos hq]
      exact h
    simp only [OrderBook.add_limit_order, if_neg hp, if_neg hq]
    obtain ⟨m, hkeys⟩ := sweepLevels_keys b.next_id
      (fun lvl => !decide (p < lvl)) b.asks q b.order_lookup b.total_ask_volume
    have hacnt := sweepLevels_cnt_length b.next_id
      (fun lvl => !decide (p < lvl)) b.asks q b.order_lookup b.total_ask_volume
      h.asks_cnt
    have hstop := sweepLevels_stop b.next_id
      (fun lvl => !decide (p < lvl)) b.asks q b.order_lookup b.total_ask_volume
      h.asks_cnt
    generalize hs : sweepLevels b.next_id (fun lvl => !decide (p < lvl)) q
      b.asks b.order_lookup b.total_ask_volume = s
    rw [hs] at hkeys hacnt hstop
    have hsorted' : (s.levels.map Prod.fst).Pairwise tickLt := by
      rw [hkeys]
      exact h.asks_sorted.sublist (List.drop_sublist m _)
    have hamem : ∀ t ∈ s.levels.map Prod.fst, t ∈ b.asks.map Prod.fst := by
      intro t ht
      rw [hkeys] at ht
      exact List.mem_of_mem_drop ht
    refine restRemaining_preserves_buy _ p _ b.next_id _ ?_ ?_
    · exact ⟨h.ts_pos, h.bids_sorted, hsorted', h.bids_grid,
        fun t ht => h.asks_grid t (hamem t ht), h.bids_cnt, hacnt,
        fun tb htb ta hta => h.no_cross tb htb ta (hamem ta hta)⟩
    · intro hq' ta hta
      dsimp only at hta hq' ⊢
      rcases hstop with hst | hst | ⟨t0, os0, tl, hlv, hcr⟩
      · exact absurd hst (not_le.mpr hq')
      · rw [hst] at hta
        exact absurd hta (by simp)
      · have hp0 : p < t0.level := by
          have hcr' : (!decide (p < t0.level)) = false := hcr
          simpa using hcr'
        obtain ⟨_, k, hk⟩ := h.asks_grid t0 (hamem t0 (by rw [hlv]; simp))
        have hnle : Tick.normalize p b.tick_size ≤ t0.level := by
          rw [hk]
          exact normalize_le p b.tick_size k h.ts_pos (hk ▸ hp0)
        have hta' : ta = t0 ∨ ta ∈ tl.map Prod.fst := by
          rw [hlv] at hta
          simpa using hta
        rcases hta' with rfl | hta'
        · exact hnle
        · have hpair := hsorted'
          rw [hlv] at hpair
          simp only [List.map_cons, List.pairwise_cons] at hpair
          exact le_trans hnle (tickLt_level_le _ _ (hpair.1 ta hta'))
  · by_cases hp : p ≤ 0
    · rw [OrderBook.add_limit_order, if_pos hp]
      exact h
    by_cases hq : q ≤ 0
    · rw [OrderBook.add_limit_order, if_neg hp, if_pos hq]
      exact h
    simp only [OrderBook.add_limit_order, if_neg hp, if_neg hq]
    have hbcnt0 : ∀ pp ∈ b.bids.reverse, pp.2.order_count = pp.2.orders.length :=
      fun pp hpp => h.bids_cnt pp (List.mem_reverse.mp hpp)
    obtain ⟨m, hkeys⟩ := sweepLevels_keys b.next_id
      (fun lvl => !decide (p > lvl)) b.bids.reverse q b.order_lookup
      b.total_bid_volume
    have hbcnt := sweepLevels_cnt_length b.next_id
      (fun lvl => !decide (p > lvl)) b.bids.reverse q b.order_lookup
      b.total_bid_volume hbcnt0
    have hstop := sweepLevels_stop b.next_id
      (fun lvl => !decide (p > lvl)) b.bids.reverse q b.order_lookup
      b.total_bid_volume hbcnt0
    generalize hs : sweepLevels b.next_id (fun lvl => !decide (p > lvl)) q
      b.bids.reverse b.order_lookup b.total_bid_volume = s
    rw [hs] at hkeys hbcnt hstop
    rw [List.map_reverse] at hkeys
    have hrevpair : ((b.bids.map Prod.fst).reverse).Pairwise
        (fun a b => tickLt b a) := List.pairwise_reverse.mpr h.bids_sorted
    have hflip : (s.levels.map Prod.fst).Pairwise (fun a b => tickLt b a) := by
      rw [hkeys]
      exact hrevpair.sublist (List.drop_sublist m _)
    have hbmem : ∀ t ∈ s.levels.map Prod.fst, t ∈ b.bids.map Prod.fst := by
      intro t ht
      rw [hkeys] at ht
      exact List.mem_reverse.mp (List.mem_of_mem_drop ht)
    refine restRemaining_preserves_sell _ p _ b.next_id _ ?_ ?_
    · refine ⟨h.ts_pos, ?_, h.asks_sorted, ?_, h.asks_grid, ?_, h.asks_cnt, ?_⟩
      · dsimp only
        rw [List.map_reverse]
        exact List.pairwise_reverse.mpr hflip
      · intro t ht
        dsimp only at ht
        rw [List.map_reverse, List.mem_reverse] at ht
        exact h.bids_grid t (hbmem t ht)
      · intro pp hpp
        dsimp only at hpp
        rw [List.mem_reverse] at hpp
        exact hbcnt pp hpp
      · intro tb htb ta hta
        dsimp only at htb hta
        rw [List.map_reverse, List.mem_reverse] at htb
        exact h.no_cross tb (hbmem tb htb) ta hta
    · intro hq' tb htb
      dsimp only at htb hq' ⊢
      rw [List.map_reverse, List.mem_reverse] at htb
      rcases hstop with hst | hst | ⟨t0, os0, tl, hlv, hcr⟩
      · exact absurd hst (not_le.mpr hq')
      · rw [hst] at htb
        exact absurd htb (by simp)
      · have hp0 : t0.level < p := by
          have hcr' : (!decide (p > t0.level)) = false := hcr
          simpa using hcr'
        obtain ⟨_, k, hk⟩ := h.bids_grid t0 (hbmem t0 (by rw [hlv]; simp))
        have hnge : t0.level ≤ Tick.normalize p b.tick_size := by
          rw [hk]
          exact normalize_ge p b.tick_size k h.ts_pos (hk ▸ hp0)
        have htb' : tb = t0 ∨ tb ∈ tl.map Prod.fst := by
          rw [hlv] at htb
          simpa using htb
        rcases htb' with rfl | htb'
        · exact hnge
        · have hpair := hflip
          rw [hlv] at hpair
          simp only [List.map_cons, List.pairwise_cons] at hpair
          exact le_trans (tickLt_level_le _ _ (hpair.1 tb htb')) hnge

/-- `execute_market_order` preserves the shape invariant. -/
theorem execute_market_preserves_inv (b : OrderBook) (side : OrderSide)
    (q : Decimal) (h : BookInv b) :
    BookInv (b.execute_market_order side q).2 := by
  cases side
  · by_cases hpre : b.total_ask_volume < q
    · simp only [OrderBook.execute_market_order]
      rw [if_pos hpre]
      exact h
    · simp only [OrderBook.execute_market_order]
      rw [if_neg hpre]
      obtain ⟨m, hkeys⟩ := sweepLevels_keys b.next_id (fun _ => true) b.asks q
        b.order_lookup b.total_ask_volume
      have hacnt := sweepLevels_cnt_length b.next_id (fun _ => true) b.asks q
        b.order_lookup b.total_ask_volume h.asks_cnt
      generalize hs : sweepLevels b.next_id (fun _ => true) q b.asks
        b.order_lookup b.total_ask_volume = s
      rw [hs] at hkeys hacnt
      have hsorted' : (s.levels.map Prod.fst).Pairwise tickLt := by
        rw [hkeys]
        exact h.asks_sorted.sublist (List.drop_sublist m _)
      have hamem : ∀ t ∈ s.levels.map Prod.fst, t ∈ b.asks.map Prod.fst := by
        intro t ht
        rw [hkeys] at ht
        exact List.mem_of_mem_drop ht
      split
      · exact ⟨h.ts_pos, h.bids_sorted, hsorted', h.bids_grid,
          fun t ht => h.asks_grid t (hamem t ht), h.bids_cnt, hacnt,
          fun tb htb ta hta => h.no_cross tb htb ta (hamem ta hta)⟩
      · exact ⟨h.ts_pos, h.bids_sorted, hsorted', h.bids_grid,
          fun t ht => h.asks_grid t (hamem t ht), h.bids_cnt, hacnt,
          fun tb htb ta hta => h.no_cross tb htb ta (hamem ta hta)⟩
  · by_cases hpre : b.total_bid_volume < q
    · simp only [OrderBook.execute_market_order]
      rw [if_pos hpre]
      exact h
    · simp only [OrderBook.execute_market_order]
      rw [if_neg hpre]
      have hbcnt0 : ∀ pp ∈ b.bids.reverse,
          pp.2.order_count = pp.2.orders.length :=
        fun pp hpp => h.bids_cnt pp (List.mem_reverse.mp hpp)
      obtain ⟨m, hkeys⟩ := sweepLevels_keys b.next_id (fun _ => true)
        b.bids.reverse q b.order_lookup b.total_bid_volume
      have hbcnt := sweepLevels_cnt_length b.next_id (fun _ => true)
        b.bids.reverse q b.order_lookup b.total_bid_volume hbcnt0
      generalize hs : sweepLevels b.next_id (fun _ => true) q b.bids.reverse
        b.order_lookup b.total_bid_volume = s
      rw [hs] at hkeys hbcnt
      rw [List.map_reverse] at hkeys
      have hflip : (s.levels.map Prod.fst).Pairwise (fun a b => tickLt b a) := by
        rw [hkeys]
        exact (List.pairwise_reverse.mpr h.bids_sorted).sublist
          (List.drop_sublist m _)
      have hbmem : ∀ t ∈ s.levels.map Prod.fst, t ∈ b.bids.map Prod.fst := by
        intro t ht
        rw [hkeys] at ht
        exact List.mem_reverse.mp (List.mem_of_mem_drop ht)
      have hcomp : BookInv ⟨b.tick_size, s.levels.reverse, b.asks,
          b.next_id + 1, s.lk, s.agg, b.total_ask_volume⟩ := by
        refine ⟨h.ts_pos, ?_, h.asks_sorted, ?_, h.asks_grid, ?_, h.asks_cnt, ?_⟩
        · dsimp only
          rw [List.map_reverse]
          exact List.pairwise_reverse.mpr hflip
        · intro t ht
          dsimp only at ht
          rw [List.map_reverse, List.mem_reverse] at ht
          exact h.bids_grid t (hbmem t ht)
        · intro pp hpp
          dsimp only at hpp
          rw [List.mem_reverse] at hpp
          exact hbcnt pp hpp
        · intro tb htb ta hta
          dsimp only at htb hta
          rw [List.map_reverse, List.mem_reverse] at htb
          exact h.no_cross tb (hbmem tb htb) ta hta
      split
      · exact hcomp
      · exact hcomp

/-- Inversion of a successful `remove_order`. -/
theorem remove_order_inv (os : Orders) (oid : OrderId) (ro : Order)
    (os' : Orders) (h : os.remove_order oid = .ok (ro, os')) :
    ∃ rest, Orders.removeById os.orders oid = some (ro, rest) ∧
      os' = ⟨rest, os.total_volume - ro.quantity, os.order_count - 1⟩ := by
  unfold Orders.remove_order at h
  cases hrb : Orders.removeById os.orders oid with
  | none =>
    rw [hrb] at h
    simp at h
  | some pr =>
    obtain ⟨o, rest⟩ := pr
    rw [hrb] at h
    have h2 := Except.ok.inj h
    obtain ⟨ha, hb⟩ := Prod.mk.injEq .. ▸ h2
    subst ha
    exact ⟨rest, rfl, hb.symm⟩

/-- `cancel_limit_order` preserves the shape invariant. -/
theorem cancel_preserves_inv (b : OrderBook) (oid : OrderId) (h : BookInv b) :
    BookInv (b.cancel_limit_order oid).2 := by
  unfold OrderBook.cancel_limit_order
  cases hg : lkGet b.order_lookup oid with
  | none => exact h
  | some v =>
    obtain ⟨sd, tk⟩ := v
    cases sd
    · dsimp only
      cases hl : getLevel b.bids tk with
      | none => exact h
      | some lvl =>
        dsimp only
        cases hrm : lvl.remove_order oid with
        | error e => exact h
        | ok pr =>
          obtain ⟨ro, os'⟩ := pr
          dsimp only
          obtain ⟨rest, hrb, hos'⟩ := remove_order_inv lvl oid ro os' hrm
          have hmem : (tk, lvl) ∈ b.bids := getLevel_mem _ _ _ hl
          have hlen : lvl.orders.length = rest.length + 1 :=
            removeById_length _ _ _ _ hrb
          refine ⟨h.ts_pos, ?_, h.asks_sorted, ?_, h.asks_grid, ?_,
            h.asks_cnt, ?_⟩
          · dsimp only
            split
            · exact h.bids_sorted.sublist
                ((eraseLevel_sublist b.bids tk).map Prod.fst)
            · rw [setLevel_keys]
              exact h.bids_sorted
          · intro t ht
            dsimp only at ht
            split at ht
            · exact h.bids_grid t
                (((eraseLevel_sublist b.bids tk).map Prod.fst).subset ht)
            · rw [setLevel_keys] at ht
              exact h.bids_grid t ht
          · intro pp hpp
            dsimp only at hpp
            split at hpp
            · exact h.bids_cnt pp ((eraseLevel_sublist b.bids tk).subset hpp)
            · rcases setLevel_mem _ _ _ pp hpp with hh | hh
              · exact h.bids_cnt pp hh
              · subst hh
                have hc := h.bids_cnt (tk, lvl) hmem
                dsimp only at hc ⊢
                rw [hos']
                dsimp only
                omega
          · intro tb htb ta hta
            dsimp only at htb
            split at htb
            · exact h.no_cross tb
                (((eraseLevel_sublist b.bids tk).map Prod.fst).subset htb) ta hta
            · rw [setLevel_keys] at htb
              exact h.no_cross tb htb ta hta
    · dsimp only
      cases hl : getLevel b.asks tk with
      | none => exact h
      | some lvl =>
        dsimp only
        cases hrm : lvl.remove_order oid with
        | error e => exact h
        | ok pr =>
          obtain ⟨ro, os'⟩ := pr
          dsimp only
          obtain ⟨rest, hrb, hos'⟩ := remove_order_inv lvl oid ro os' hrm
          have hmem : (tk, lvl) ∈ b.asks := getLevel_mem _ _ _ hl
          have hlen : lvl.orders.length = rest.length + 1 :=
            removeById_length _ _ _ _ hrb
          refine ⟨h.ts_pos, h.bids_sorted, ?_, h.bids_grid, ?_, h.bids_cnt,
            ?_, ?_⟩
          · dsimp only
            split
            · exact h.asks_sorted.sublist
                ((eraseLevel_sublist b.asks tk).map Prod.fst)
            · rw [setLevel_keys]
              exact h.asks_sorted
          · intro t ht
            dsimp only at ht
            split at ht
            · exact h.asks_grid t
                (((eraseLevel_sublist b.asks tk).map Prod.fst).subset ht)
            · rw [setLevel_keys] at ht
              exact h.asks_grid t ht
          · intro pp hpp
            dsimp only at hpp
            split at hpp
            · exact h.asks_cnt pp ((eraseLevel_sublist b.asks tk).subset hpp)
            · rcases setLevel_mem _ _ _ pp hpp with hh | hh
              · exact h.asks_cnt pp hh
              · subst hh
                have hc := h.asks_cnt (tk, lvl) hmem
                dsimp only at hc ⊢
                rw [hos']
                dsimp only
                omega
          · intro tb htb ta hta
            dsimp only at hta
            split at hta
            · exact h.no_cross tb htb ta
                (((eraseLevel_sublist b.asks tk).map Prod.fst).subset hta)
            · rw [setLevel_keys] at hta
              exact h.no_cross tb htb ta hta

/-- Every operation preserves the shape invariant. -/
theorem applyOp_preserves_inv (b : OrderBook) (op : BookOp) (h : BookInv b) :
    BookInv (applyOp b op) := by
  cases op with
  | addLimit side p q => exact add_limit_preserves_inv b side p q h
  | execMarket side q => exact execute_market_preserves_inv b side q h
  | cancel oid => exact cancel_preserves_inv b oid h

/-- Running any operation sequence preserves the shape invariant. -/
theorem runOps_preserves_inv (ops : List BookOp) :
    ∀ (b : OrderBook), BookInv b → BookInv (runOps b ops) := by
  induction ops with
  | nil => exact fun b h => h
  | cons op rest ih =>
    intro b h
    exact ih _ (applyOp_preserves_inv b op h)

/-- A freshly created book satisfies the shape invariant. -/
theorem emptyBook_inv (ts : Decimal) (hts : 0 < ts) : BookInv (emptyBook ts) := by
  refine ⟨hts, ?_, ?_, ?_, ?_, ?_, ?_, ?_⟩ <;> simp [emptyBook]

/-- C1 amended: after every sequence of `add_limit`, `execute_market` and
`cancel` calls on a book created with a positive tick size, whenever both
sides are non-empty `best_bid() ≤ best_ask()` holds, and `spread()` is
non-negative whenever it is `Some`.  The original strict inequality fails:
a resting order whose raw price is normalized **up** (for a bid; down for
an ask) can land exactly on the opposite best level, making `best_bid =
best_ask` and `spread = Some 0` reachable (see the counterexample); the
sides still never strictly cross. -/
theorem C1_no_cross_amended (ts : Decimal) (ops : List BookOp) (hts : 0 < ts) :
    (∀ bid ask, (runOps (emptyBook ts) ops).best_bid = some bid →
      (runOps (emptyBook ts) ops).best_ask = some ask → bid ≤ ask) ∧
    (∀ s, (runOps (emptyBook ts) ops).spread = some s → 0 ≤ s) := by
  have hinv := runOps_preserves_inv ops (emptyBook ts) (emptyBook_inv ts hts)
  have hmain : ∀ bid ask, (runOps (emptyBook ts) ops).best_bid = some bid →
      (runOps (emptyBook ts) ops).best_ask = some ask → bid ≤ ask := by
    intro bid ask hbid hask
    unfold OrderBook.best_bid at hbid
    unfold OrderBook.best_ask at hask
    obtain ⟨pb, hpb, hpb2⟩ := Option.map_eq_some'.mp hbid
    obtain ⟨pa, hpa, hpa2⟩ := Option.map_eq_some'.mp hask
    have hmb : pb ∈ (runOps (emptyBook ts) ops).bids :=
      List.mem_of_getLast?_eq_some hpb
    have hma : pa ∈ (runOps (emptyBook ts) ops).asks :=
      List.mem_of_mem_head? hpa
    have := hinv.no_cross pb.1 (List.mem_map_of_mem _ hmb) pa.1
      (List.mem_map_of_mem _ hma)
    rw [hpb2, hpa2] at this
    exact this
  refine ⟨hmain, ?_⟩
  intro s hs
  unfold OrderBook.spread at hs
  cases hask : (runOps (emptyBook ts) ops).best_ask with
  | none => rw [hask] at hs; simp at hs
  | some ask =>
    cases hbid : (runOps (emptyBook ts) ops).best_bid with
    | none => rw [hask, hbid] at hs; simp at hs
    | some bid =>
      rw [hask, hbid] at hs
      have hle := hmain bid ask hbid hask
      have : s = ask - bid := (Option.some.inj hs).symm
      rw [this]
      linarith

/-- C1 amended witness: on the touch-producing sequence the amended bound
holds with equality. -/
theorem C1_no_cross_amended_witness :
    (0:ℚ) ≤ 0 ∧ (10002:ℚ)/100 ≤ 10002/100 := by
  have h := C1_no_cross_amended (1/100)
    [.addLimit .Sell (10002/100) 5, .addLimit .Buy (100016/1000) 5]
    (by norm_num)
  have heval : (runOps (emptyBook (1/100))
      [.addLimit .Sell (10002/100) 5, .addLimit .Buy (100016/1000) 5]).best_bid =
        some (10002/100) ∧
      (runOps (emptyBook (1/100))
      [.addLimit .Sell (10002/100) 5, .addLimit .Buy (100016/1000) 5]).best_ask =
        some (10002/100) ∧
      (runOps (emptyBook (1/100))
      [.addLimit .Sell (10002/100) 5, .addLimit .Buy (100016/1000) 5]).spread =
        some 0 := by
    norm_num [runOps, applyOp, OrderBook.add_limit_order, sweepLevels,
      matchQueue, OrderBook.restRemaining, Tick.new, Tick.normalize, roundBank,
      Order.new, insertOrder, tickLt, emptyBook, lkInsert, lkRemove, Orders.new,
      Orders.add_order, min_def, Int.floor_eq_iff, OrderBook.spread,
      OrderBook.best_bid, OrderBook.best_ask]
  exact ⟨h.2 0 heval.2.2, h.1 (10002/100) (10002/100) heval.1 heval.2.1⟩
